import Mathlib

/-!
# PomPom verification development

A shallow embedding, in Lean 4, of the numeric and combinatorial core of the
PomPom projection-mapping repository, together with proofs about it:

* the Mulberry32 seeded PRNG, djb2 string hash and seed combiner of
  `src/ui/src/lib/animations/prng.ts`, and the clock provider of
  `src/ui/src/lib/animations/clock.ts` (32-bit JavaScript integer arithmetic is
  modelled on `Nat` with explicit reduction modulo `2^32`);
* the island-detection pipeline of the island-detection module
  (binarisation, two-pass union-find connected-component labelling,
  component measurement and classification, and the three output masks);
* the Gaussian elimination solver, DLT homography construction, homography
  inversion and point transformation of `src/ui/src/lib/mask-transform.ts`
  and `src/ui/src/lib/homography.ts` (IEEE doubles are modelled by `ℚ`,
  exact rational arithmetic);
* the pom-pom detector of `src/ui/src/lib/projection-config.ts`.
-/

/-! ## Mulberry32 PRNG, djb2 hash, seed combiner (prng.ts) -/

/-- `2^32`, the modulus of JavaScript 32-bit integer coercion (`| 0`, `>>> 0`). -/
def u32mod : Nat := 4294967296

/-- `Math.imul`: 32-bit integer multiplication, as a bit pattern. -/
def imul32 (a b : Nat) : Nat := a * b % u32mod

/-- One call of the closure returned by `createPRNG` (Mulberry32): the new
32-bit state together with the produced number in `[0,1)`.
Source (prng.ts): `state = (state + 0x6d2b79f5) | 0; let t = state;
t = Math.imul(t ^ (t >>> 15), t | 1);
t ^= t + Math.imul(t ^ (t >>> 7), t | 61);
return ((t ^ (t >>> 14)) >>> 0) / 4294967296;` -/
def mulberryStep (state : Nat) : Nat × ℚ :=
  let s := (state + 0x6d2b79f5) % u32mod
  let t1 := imul32 (Nat.xor s (s >>> 15)) (Nat.lor s 1)
  let t2 := Nat.xor t1 ((t1 + imul32 (Nat.xor t1 (t1 >>> 7)) (Nat.lor t1 61)) % u32mod)
  let out := Nat.xor t2 (t2 >>> 14)
  (s, (out : ℚ) / 4294967296)

/-- The first `n` outputs of a Mulberry32 generator started at `state`. -/
def prngStream : Nat → Nat → List ℚ
  | _, 0 => []
  | state, n + 1 =>
    (mulberryStep state).2 :: prngStream (mulberryStep state).1 n

/-- `createPRNG seed` initialises the state with `seed >>> 0`; the sequence of
outputs of its first `n` calls. -/
def createPRNGStream (seed n : Nat) : List ℚ :=
  prngStream (seed % u32mod) n

/-- `hashString` (djb2) over a string given as its UTF-16 code units:
`hash = ((hash << 5) + hash + str.charCodeAt(i)) | 0`, starting at 5381,
returned as `hash >>> 0`. -/
def hashString (codeUnits : List Nat) : Nat :=
  codeUnits.foldl (fun h c => (h * 33 + c) % u32mod) 5381

/-- `combineSeeds`: `combined = ((combined << 5) - combined + seed) | 0`
folded over the seeds, starting at 0, returned as `combined >>> 0`;
on 32-bit patterns this step is `31 * combined + seed (mod 2^32)`. -/
def combineSeeds (seeds : List Nat) : Nat :=
  seeds.foldl (fun c s => (31 * c + s) % u32mod) 0

/-! ## Animation clock provider (clock.ts) -/

/-- `AnimationClock` from `types.ts` / `clock.ts`: `{ startedAt, seed,
sequenceNumber }`. -/
structure AnimationClock where
  startedAt : Int
  seed : Nat
  sequenceNumber : Int
deriving DecidableEq, Repr

/-- The namespaced seed a clock provider derives in `getPRNG`:
`combineSeeds(seed, hashString(namespace))`. -/
def namespaceSeed (clock : AnimationClock) (ns : List Nat) : Nat :=
  combineSeeds [clock.seed, hashString ns]

/-- The sequence of numbers observed by calling the PRNG that
`createClockProvider(clock).getPRNG(ns)` returns `n` times.  The provider
caches the generator per namespace, so the `n` calls continue one Mulberry32
stream seeded with the namespaced seed. -/
def providerOutputs (clock : AnimationClock) (ns : List Nat) (n : Nat) : List ℚ :=
  createPRNGStream (namespaceSeed clock ns) n

/-! ## Homography solver (mask-transform.ts, homography.ts), over `ℚ` -/

/-- A point `{x, y}`. -/
structure Pt where
  x : ℚ
  y : ℚ
deriving DecidableEq, Repr

/-- A quad `{topLeft, topRight, bottomLeft, bottomRight}`. -/
structure QuadQ where
  topLeft : Pt
  topRight : Pt
  bottomLeft : Pt
  bottomRight : Pt
deriving DecidableEq, Repr

/-- Set entry `i` of a list, leaving the list unchanged when out of range
(array writes in the source are always in range). -/
def lset {α : Type} : List α → Nat → α → List α
  | [], _, _ => []
  | _ :: xs, 0, v => v :: xs
  | x :: xs, n + 1, v => x :: lset xs n v

/-- Read entry `i` of a list of rationals, `0` when out of range. -/
def lget (l : List ℚ) (i : Nat) : ℚ := l.getD i 0

/-- In the forward elimination of `solveLinearSystem`: index of the row in
`row ∈ [col, n)` whose entry in column `col` has the largest magnitude
(the partial-pivoting scan `if |augmented[row][col]| > |augmented[maxRow][col]|`). -/
def pivotRow (aug : List (List ℚ)) (col n : Nat) : Nat :=
  (List.range (n - col - 1)).foldl
    (fun maxRow k =>
      let row := col + 1 + k
      if |lget (aug.getD row []) col| > |lget (aug.getD maxRow []) col| then row else maxRow)
    col

/-- Swap rows `i` and `j` of the augmented matrix. -/
def swapRows (aug : List (List ℚ)) (i j : Nat) : List (List ℚ) :=
  let ri := aug.getD i []
  let rj := aug.getD j []
  lset (lset aug i rj) j ri

/-- Eliminate below the pivot in column `col`:
`factor = aug[row][col] / aug[col][col]`, then
`aug[row][j] -= factor * aug[col][j]` for `j ∈ [col, n]`. -/
def eliminateBelow (aug : List (List ℚ)) (col n : Nat) : List (List ℚ) :=
  (List.range (n - col - 1)).foldl
    (fun a k =>
      let row := col + 1 + k
      let pivotR := a.getD col []
      let target := a.getD row []
      let factor := lget target col / lget pivotR col
      let newRow := (List.range (n + 1)).map
        (fun j => if col ≤ j then lget target j - factor * lget pivotR j else lget target j)
      lset a row newRow)
    aug

/-- The forward-elimination phase of `solveLinearSystem`: for each column,
find the partial pivot, swap it into place, eliminate below. -/
def forwardEliminate (aug : List (List ℚ)) (n : Nat) : List (List ℚ) :=
  (List.range n).foldl
    (fun a col => eliminateBelow (swapRows a col (pivotRow a col n)) col n)
    aug

/-- The back-substitution phase: `x[i] = (aug[i][n] - Σ_{j>i} aug[i][j]·x[j]) / aug[i][i]`,
from the last row upwards.  `backSubst aug n k` computes `x[n-k..n-1]`. -/
def backSubst (aug : List (List ℚ)) (n : Nat) : Nat → List ℚ
  | 0 => []
  | k + 1 =>
    let tail := backSubst aug n k
    let i := n - (k + 1)
    let row := aug.getD i []
    let s := (List.range k).foldl
      (fun acc m => acc - lget row (i + 1 + m) * lget tail m) (lget row n)
    s / lget row i :: tail

/-- `solveLinearSystem(A, b)` from mask-transform.ts: Gaussian elimination
with partial pivoting followed by back substitution.  The source contains no
singularity test and no error path: it always returns an array of length
`b.length` (a zero pivot yields non-finite entries in JavaScript, modelled
here by `ℚ`'s total division). -/
def solveLinearSystem (A : List (List ℚ)) (b : List ℚ) : List ℚ :=
  let n := b.length
  let aug := (List.range n).map (fun i => A.getD i [] ++ [b.getD i 0])
  backSubst (forwardEliminate aug n) n n

/-- `computeHomographyQuadToQuad(src, dst)`: the 8×8 DLT system (two rows per
corner, corners in the order TL, TR, BR, BL) solved by `solveLinearSystem`,
returned as the row-major 3×3 matrix `[h0..h7, 1]`. -/
def computeHomographyQuadToQuad (src dst : QuadQ) : List ℚ :=
  let sx := [src.topLeft.x, src.topRight.x, src.bottomRight.x, src.bottomLeft.x]
  let sy := [src.topLeft.y, src.topRight.y, src.bottomRight.y, src.bottomLeft.y]
  let dx := [dst.topLeft.x, dst.topRight.x, dst.bottomRight.x, dst.bottomLeft.x]
  let dy := [dst.topLeft.y, dst.topRight.y, dst.bottomRight.y, dst.bottomLeft.y]
  let A := (List.range 4).foldr
    (fun i rows =>
      [lget sx i, lget sy i, 1, 0, 0, 0, -(lget dx i) * lget sx i, -(lget dx i) * lget sy i] ::
      [0, 0, 0, lget sx i, lget sy i, 1, -(lget dy i) * lget sx i, -(lget dy i) * lget sy i] ::
      rows)
    []
  let b := [lget dx 0, lget dy 0, lget dx 1, lget dy 1, lget dx 2, lget dy 2, lget dx 3, lget dy 3]
  let h := solveLinearSystem A b
  [lget h 0, lget h 1, lget h 2, lget h 3, lget h 4, lget h 5, lget h 6, lget h 7, 1]

/-- A 3×3 matrix of rationals, row-major (`H[0..8]` in the source). -/
structure Mat3 where
  a : ℚ
  b : ℚ
  c : ℚ
  d : ℚ
  e : ℚ
  f : ℚ
  g : ℚ
  h : ℚ
  i : ℚ
deriving DecidableEq, Repr

/-- View a row-major list of 9 numbers as a `Mat3`. -/
def mat3OfList (l : List ℚ) : Mat3 :=
  ⟨lget l 0, lget l 1, lget l 2, lget l 3, lget l 4, lget l 5, lget l 6, lget l 7, lget l 8⟩

/-- The determinant computed inside `invertHomography`:
`det = a(ei − fh) − b(di − fg) + c(dh − eg)`. -/
def det3 (H : Mat3) : ℚ :=
  H.a * (H.e * H.i - H.f * H.h) - H.b * (H.d * H.i - H.f * H.g) +
    H.c * (H.d * H.h - H.e * H.g)

/-- `invertHomography(H)` from mask-transform.ts: the adjugate divided by the
determinant, entry by entry as written in the source. -/
def invertHomography (H : Mat3) : Mat3 :=
  let det := det3 H
  ⟨(H.e * H.i - H.f * H.h) / det,
   (H.c * H.h - H.b * H.i) / det,
   (H.b * H.f - H.c * H.e) / det,
   (H.f * H.g - H.d * H.i) / det,
   (H.a * H.i - H.c * H.g) / det,
   (H.c * H.d - H.a * H.f) / det,
   (H.d * H.h - H.e * H.g) / det,
   (H.b * H.g - H.a * H.h) / det,
   (H.a * H.e - H.b * H.d) / det⟩

/-- The homogeneous coordinate `w' = H[2][0]·x + H[2][1]·y + H[2][2]` used by
`transformPoint` in homography.ts. -/
def wCoord (H : Mat3) (p : Pt) : ℚ := H.g * p.x + H.h * p.y + H.i

/-- `transformPoint(point, H)` from homography.ts:
`([H00 x + H01 y + H02]/w, [H10 x + H11 y + H12]/w)`. -/
def transformPoint (p : Pt) (H : Mat3) : Pt :=
  let w := wCoord H p
  ⟨(H.a * p.x + H.b * p.y + H.c) / w, (H.d * p.x + H.e * p.y + H.f) / w⟩

/-- The unit square as a quad (TL, TR, BL, BR). -/
def unitSquare : QuadQ := ⟨⟨0, 0⟩, ⟨1, 0⟩, ⟨0, 1⟩, ⟨1, 1⟩⟩

/-- The homography the resampler computes from the unit square to a quad, as a
`Mat3`. -/
def homographyFromUnitSquare (Q : QuadQ) : Mat3 :=
  mat3OfList (computeHomographyQuadToQuad unitSquare Q)

/-! ## calculateHomography input validation (homography.ts) -/

/-- The result record `{ matrix, success, error? }` of `calculateHomography`,
with the matrix as a (possibly empty) list of rows. -/
structure HomographyResult where
  matrix : List (List ℚ)
  success : Bool
  error : Option String
deriving DecidableEq, Repr

/-- What `calculateHomography` does before any network/solve activity: either
it returns early with a failure record, or it reaches the
`fetch(.../homography)` call with the two point lists as payload. -/
inductive CalcHomographyStep where
  | early (r : HomographyResult)
  | solveRequest (cameraPoints projectorPoints : List Pt)
deriving DecidableEq, Repr

/-- The input-validation prefix of `calculateHomography(cameraCorners,
projectorCorners)`: a count mismatch and a count below 4 each return
`{ matrix: [], success: false, error: ... }` immediately; otherwise the
function proceeds to the solve request. -/
def calculateHomographyStep (cameraCorners projectorCorners : List Pt) :
    CalcHomographyStep :=
  if cameraCorners.length ≠ projectorCorners.length then
    .early ⟨[], false, some "Camera and projector corner counts must match"⟩
  else if cameraCorners.length < 4 then
    .early ⟨[], false, some "Need at least 4 point correspondences"⟩
  else
    .solveRequest cameraCorners projectorCorners

/-! ## Helper lemmas -/

/-- `backSubst` always produces a vector of length `k`. -/
theorem backSubst_length (aug : List (List ℚ)) (n : Nat) :
    ∀ k, (backSubst aug n k).length = k := by
  intro k
  induction k with
  | zero => rfl
  | succ k ih => simp [backSubst, ih]

/-- The solver has no failure path: it returns a vector of the length of the
right-hand side for every input, singular or not. -/
theorem solveLinearSystem_length (A : List (List ℚ)) (b : List ℚ) :
    (solveLinearSystem A b).length = b.length := by
  simp [solveLinearSystem, backSubst_length]

/-- Algebraic round trip for any matrix with nonzero determinant at a point
with nonzero homogeneous coordinate: `transformPoint` by the
`invertHomography` inverse undoes `transformPoint` by the matrix, exactly. -/
theorem transformPoint_invert_roundtrip (H : Mat3) (p : Pt)
    (hdet : det3 H ≠ 0) (hw : wCoord H p ≠ 0) :
    transformPoint (transformPoint p H) (invertHomography H) = p := by
  obtain ⟨a, b, c, d, e, f, g, h, i⟩ := H
  obtain ⟨x, y⟩ := p
  simp only [det3] at hdet
  simp only [wCoord] at hw
  simp only [transformPoint, invertHomography, wCoord, det3]
  have key : (d * h - e * g) / (a * (e * i - f * h) - b * (d * i - f * g) + c * (d * h - e * g)) *
        ((a * x + b * y + c) / (g * x + h * y + i)) +
      (b * g - a * h) / (a * (e * i - f * h) - b * (d * i - f * g) + c * (d * h - e * g)) *
        ((d * x + e * y + f) / (g * x + h * y + i)) +
      (a * e - b * d) / (a * (e * i - f * h) - b * (d * i - f * g) + c * (d * h - e * g)) =
      1 / (g * x + h * y + i) := by
    field_simp
    ring
  rw [Pt.mk.injEq]
  constructor
  · rw [key, div_div_eq_mul_div, div_one]
    field_simp
    ring
  · rw [key, div_div_eq_mul_div, div_one]
    field_simp
    ring

/-! ## Claim C1 -/

/-- C1: two separately constructed clock providers built from `AnimationClock`
values sharing a seed return PRNGs that, called the same number of times on
the same namespace, produce identical sequences; `startedAt` and
`sequenceNumber` play no role. -/
theorem C1_prng_depends_only_on_seed (c1 c2 : AnimationClock) (ns : List Nat)
    (n : Nat) (hseed : c1.seed = c2.seed) :
    providerOutputs c1 ns n = providerOutputs c2 ns n := by
  simp [providerOutputs, namespaceSeed, hseed]

/-- Witness for C1: clocks `{startedAt := 0, seed := 42, sequenceNumber := 1}`
and `{startedAt := 999, seed := 42, sequenceNumber := 7}` differ in both
remaining fields yet give the same first five outputs on namespace "x"
(code unit 120). -/
theorem C1_prng_depends_only_on_seed_witness :
    (AnimationClock.mk 0 42 1).seed = (AnimationClock.mk 999 42 7).seed ∧
      providerOutputs (AnimationClock.mk 0 42 1) [120] 5 =
        providerOutputs (AnimationClock.mk 999 42 7) [120] 5 :=
  ⟨rfl, C1_prng_depends_only_on_seed (AnimationClock.mk 0 42 1)
    (AnimationClock.mk 999 42 7) [120] 5 rfl⟩

/-! ## Perspective resampler: shader path vs CPU fallback (mask-transform.ts) -/

/-- The fixed `projectorRect` destination quad `(0,0)–(1920,1080)` built inside
`transformMaskToProjector`. -/
def projectorRect : QuadQ := ⟨⟨0, 0⟩, ⟨1920, 0⟩, ⟨0, 1080⟩, ⟨1920, 1080⟩⟩

/-- The camera-space source coordinate the WebGL fragment shader samples for a
destination (projector) point `p`: the shader applies
`u_homography = Scale · H` with `H = computeHomographyQuadToQuad(projectorRect,
cameraQuad)` to `(p.x, p.y, 1)` and divides by the homogeneous coordinate; the
final diagonal `Scale` by `1/cameraWidth, 1/cameraHeight` only converts to UV,
so the camera-pixel coordinate is `transformPoint p H`. -/
def shaderSampleCoord (cameraQuad : QuadQ) (p : Pt) : Pt :=
  transformPoint p (mat3OfList (computeHomographyQuadToQuad projectorRect cameraQuad))

/-- The camera-space source coordinate the canvas-2D `fallbackTransform`
samples for a destination point `p`: `drawImage` crops the axis-aligned
bounding box of the camera quad and stretches it over the
1920×1080 output, an affine map with no perspective correction. -/
def fallbackSampleCoord (cameraQuad : QuadQ) (p : Pt) : Pt :=
  let minX := min (min cameraQuad.topLeft.x cameraQuad.topRight.x)
    (min cameraQuad.bottomRight.x cameraQuad.bottomLeft.x)
  let maxX := max (max cameraQuad.topLeft.x cameraQuad.topRight.x)
    (max cameraQuad.bottomRight.x cameraQuad.bottomLeft.x)
  let minY := min (min cameraQuad.topLeft.y cameraQuad.topRight.y)
    (min cameraQuad.bottomRight.y cameraQuad.bottomLeft.y)
  let maxY := max (max cameraQuad.topLeft.y cameraQuad.topRight.y)
    (max cameraQuad.bottomRight.y cameraQuad.bottomLeft.y)
  ⟨minX + p.x * (maxX - minX) / 1920, minY + p.y * (maxY - minY) / 1080⟩

/-- The `SIMULATION_QUAD` of the webcam build of projection-config.ts, an
axis-aligned rectangle in the 640×480 camera image. -/
def simulationQuadRect : QuadQ := ⟨⟨30, 80⟩, ⟨610, 80⟩, ⟨30, 450⟩, ⟨610, 450⟩⟩

/-- The `SIMULATION_QUAD` of the photo build of projection-config.ts, a
genuine trapezoid in the 996×1328 camera image. -/
def simulationQuadTrapezoid : QuadQ := ⟨⟨240, 165⟩, ⟨900, 290⟩, ⟨240, 700⟩, ⟨910, 690⟩⟩

section RatEval

attribute [local semireducible] Rat.add Rat.mul Rat.sub Rat.inv

set_option maxRecDepth 40000

/-! ## Claim C3 -/

/-- C3 (amended): `solveLinearSystem` contains no singularity detection and no
failure path; for every coefficient matrix and right-hand side — singular or
not — it returns a vector of the length of the right-hand side (never a
`SingularSystem` failure, which does not exist in the code base). -/
theorem C3_solver_has_no_failure_path (A : List (List ℚ)) (b : List ℚ) :
    (solveLinearSystem A b).length = b.length :=
  solveLinearSystem_length A b

/-- Witness for C3: on a concrete 2×2 system the solver returns a length-2
vector. -/
theorem C3_solver_has_no_failure_path_witness :
    (solveLinearSystem [[(1:ℚ), 1], [1, 1]] [1, 2]).length = [(1:ℚ), 2].length :=
  C3_solver_has_no_failure_path [[(1:ℚ), 1], [1, 1]] [1, 2]

/-- Counterexample to C3 as stated: the spec's canonical degenerate input —
three collinear correspondence points `(0,0), (1,0), (2,0)` plus a fourth —
does not make the solver fail with `SingularSystem`: `solveLinearSystem` has
no error result at all, and `computeHomographyQuadToQuad` still returns a
9-entry matrix for it. -/
theorem C3_counterexample :
    (computeHomographyQuadToQuad ⟨⟨0, 0⟩, ⟨1, 0⟩, ⟨0, 1⟩, ⟨2, 0⟩⟩ unitSquare).length = 9 := by
  decide

/-! ## Claim C6 -/

/-- C6: for a quad `Q` whose unit-square homography is non-degenerate
(`det ≠ 0` and nonzero homogeneous coordinate at `p`), transforming any point
`p` of the unit square by `computeHomographyQuadToQuad(unitSquare, Q)` and
then by its `invertHomography` inverse returns `p` — exactly over `ℚ`, hence
in particular within the claimed `1e-6` tolerance. -/
theorem C6_unit_square_roundtrip (Q : QuadQ) (p : Pt)
    (hx0 : 0 ≤ p.x) (hx1 : p.x ≤ 1) (hy0 : 0 ≤ p.y) (hy1 : p.y ≤ 1)
    (hdet : det3 (homographyFromUnitSquare Q) ≠ 0)
    (hw : wCoord (homographyFromUnitSquare Q) p ≠ 0) :
    transformPoint (transformPoint p (homographyFromUnitSquare Q))
      (invertHomography (homographyFromUnitSquare Q)) = p :=
  transformPoint_invert_roundtrip (homographyFromUnitSquare Q) p hdet hw

/-- Witness for C6: the non-degenerate quad `(0,0), (2,0), (0,2), (3,3)` and
the unit-square point `(1/2, 1/3)` satisfy every hypothesis, and the round
trip is the identity there. -/
theorem C6_unit_square_roundtrip_witness :
    0 ≤ (Pt.mk (1/2) (1/3)).x ∧ (Pt.mk (1/2) (1/3)).x ≤ 1 ∧
      0 ≤ (Pt.mk (1/2) (1/3)).y ∧ (Pt.mk (1/2) (1/3)).y ≤ 1 ∧
      det3 (homographyFromUnitSquare ⟨⟨0, 0⟩, ⟨2, 0⟩, ⟨0, 2⟩, ⟨3, 3⟩⟩) ≠ 0 ∧
      wCoord (homographyFromUnitSquare ⟨⟨0, 0⟩, ⟨2, 0⟩, ⟨0, 2⟩, ⟨3, 3⟩⟩)
        (Pt.mk (1/2) (1/3)) ≠ 0 ∧
      transformPoint
        (transformPoint (Pt.mk (1/2) (1/3))
          (homographyFromUnitSquare ⟨⟨0, 0⟩, ⟨2, 0⟩, ⟨0, 2⟩, ⟨3, 3⟩⟩))
        (invertHomography (homographyFromUnitSquare ⟨⟨0, 0⟩, ⟨2, 0⟩, ⟨0, 2⟩, ⟨3, 3⟩⟩)) =
        Pt.mk (1/2) (1/3) :=
  ⟨by decide, by decide, by decide, by decide, by decide, by decide,
    C6_unit_square_roundtrip ⟨⟨0, 0⟩, ⟨2, 0⟩, ⟨0, 2⟩, ⟨3, 3⟩⟩ (Pt.mk (1/2) (1/3))
      (by decide) (by decide) (by decide) (by decide) (by decide) (by decide)⟩

/-! ## Claim C7 -/

/-- Counterexample to C7 as stated: at the repository's own trapezoid
calibration quad, the WebGL path samples the camera image at the projective
image of the output centre `(960, 540)` while the canvas-2D fallback samples
at the bounding-box stretch of it — two different source pixels, so the two
implementations are not pixel-identical. -/
theorem C7_counterexample :
    shaderSampleCoord simulationQuadTrapezoid ⟨960, 540⟩ ≠
      fallbackSampleCoord simulationQuadTrapezoid ⟨960, 540⟩ := by
  decide

/-- C7 (amended): the CPU fallback is a bounding-box crop-and-stretch, not a
perspective warp, so it matches the shader path's sampling geometry only in
special cases; for an axis-aligned rectangular camera quad (here the webcam
build's `SIMULATION_QUAD`) the projective map degenerates to the same affine
stretch and the two paths sample identical source coordinates for every
destination point. -/
theorem C7_fallback_matches_shader_on_rectangle (p : Pt) :
    shaderSampleCoord simulationQuadRect p = fallbackSampleCoord simulationQuadRect p := by
  have hH : computeHomographyQuadToQuad projectorRect simulationQuadRect =
      [29/96, 0, 30, 0, 37/108, 80, 0, 0, 1] := by decide
  obtain ⟨x, y⟩ := p
  simp only [shaderSampleCoord, hH, mat3OfList, lget, List.getD, List.getElem?_cons_zero,
    List.getElem?_cons_succ, Option.getD_some, transformPoint, wCoord]
  simp only [fallbackSampleCoord, simulationQuadRect]
  norm_num
  constructor <;> ring

/-! ## Claim C8 -/

/-- Counterexample to C8 as stated: with a one-point camera list and an empty
projector list the camera list has fewer than 4 points, yet
`calculateHomography` returns the count-mismatch error, not the
insufficient-correspondences error. -/
theorem C8_counterexample :
    calculateHomographyStep [⟨0, 0⟩] [] ≠
      CalcHomographyStep.early ⟨[], false, some "Need at least 4 point correspondences"⟩ ∧
      calculateHomographyStep [⟨0, 0⟩] [] =
        CalcHomographyStep.early
          ⟨[], false, some "Camera and projector corner counts must match"⟩ := by
  constructor
  · decide
  · decide

/-- C8 (amended): whenever the two point lists have equal length and fewer
than 4 points, `calculateHomography` fails immediately with the
insufficient-correspondences error — `success = false`, an empty matrix, and
no solve request is ever issued (and a length mismatch likewise returns early
with `success = false` and an empty matrix, but with the count-mismatch
error). -/
theorem C8_short_input_rejected (cameraCorners projectorCorners : List Pt)
    (hlen : cameraCorners.length = projectorCorners.length)
    (hshort : cameraCorners.length < 4) :
    calculateHomographyStep cameraCorners projectorCorners =
      CalcHomographyStep.early ⟨[], false, some "Need at least 4 point correspondences"⟩ := by
  simp [calculateHomographyStep, hlen, hshort, hlen ▸ hshort]

/-- Witness for C8: two concrete equal-length three-point lists are rejected
with the insufficient-correspondences failure. -/
theorem C8_short_input_rejected_witness :
    ([⟨0, 0⟩, ⟨1, 0⟩, ⟨0, 1⟩] : List Pt).length = ([⟨5, 5⟩, ⟨6, 5⟩, ⟨5, 6⟩] : List Pt).length ∧
      ([⟨0, 0⟩, ⟨1, 0⟩, ⟨0, 1⟩] : List Pt).length < 4 ∧
      calculateHomographyStep [⟨0, 0⟩, ⟨1, 0⟩, ⟨0, 1⟩] [⟨5, 5⟩, ⟨6, 5⟩, ⟨5, 6⟩] =
        CalcHomographyStep.early ⟨[], false, some "Need at least 4 point correspondences"⟩ :=
  ⟨rfl, by decide,
    C8_short_input_rejected [⟨0, 0⟩, ⟨1, 0⟩, ⟨0, 1⟩] [⟨5, 5⟩, ⟨6, 5⟩, ⟨5, 6⟩] rfl (by decide)⟩

/-! ## Union-find connected-component labelling

The island detector and the pom-pom detector contain byte-identical copies of
this code (a `UnionFind` class with path compression and union by rank, a
row-major first labelling pass over the binarised pixels, and a flattening
second pass); it is embedded once.  Typed arrays are modelled by `List Nat`
with in-range reads/writes (`ufget`/`lset`); array accesses in the source are
always in range. -/

/-- Read entry `i` of a `Uint32Array` modelled as a list, `0` out of range. -/
def ufget (l : List Nat) (i : Nat) : Nat := l.getD i 0

/-- The `UnionFind` class: `parent` and `rank` arrays. -/
structure UnionFind where
  parent : List Nat
  rank : List Nat
deriving DecidableEq, Repr

/-- The constructor: `parent[i] = i`, `rank[i] = 0`. -/
def UnionFind.init (size : Nat) : UnionFind :=
  ⟨List.range size, List.replicate size 0⟩

/-- `find(x)` with path compression, fuelled: follow `parent` until a
fixpoint, then rewrite every traversed entry to the root (the source's
recursion `parent[x] = find(parent[x])`).  Returns the updated structure and
the root.  The fuel (the array size in `UnionFind.find`) always suffices
because parent chains are acyclic. -/
def UnionFind.findAux : Nat → UnionFind → Nat → UnionFind × Nat
  | 0, uf, x => (uf, x)
  | fuel + 1, uf, x =>
    let p := ufget uf.parent x
    if p = x then (uf, x)
    else
      let r := UnionFind.findAux fuel uf p
      (⟨lset r.1.parent x r.2, r.1.rank⟩, r.2)

/-- `find(x)`. -/
def UnionFind.find (uf : UnionFind) (x : Nat) : UnionFind × Nat :=
  UnionFind.findAux uf.parent.length uf x

/-- `union(x, y)`: find both roots; if distinct, link by rank, incrementing
the rank when the ranks are equal. -/
def UnionFind.union (uf : UnionFind) (x y : Nat) : UnionFind :=
  let fx := uf.find x
  let fy := fx.1.find y
  let uf2 := fy.1
  let rootX := fx.2
  let rootY := fy.2
  if rootX = rootY then uf2
  else if ufget uf2.rank rootX < ufget uf2.rank rootY then
    ⟨lset uf2.parent rootX rootY, uf2.rank⟩
  else if ufget uf2.rank rootY < ufget uf2.rank rootX then
    ⟨lset uf2.parent rootY rootX, uf2.rank⟩
  else
    ⟨lset uf2.parent rootY rootX, lset uf2.rank rootX (ufget uf2.rank rootX + 1)⟩

/-- Binarisation: a pixel is foreground when its alpha channel exceeds 128
(`pixels[i * 4 + 3] > 128 ? 1 : 0`).  A raster is modelled by its alpha
channel `alpha : Nat → Nat` over row-major pixel indices. -/
def binarize (alpha : Nat → Nat) (i : Nat) : Bool := 128 < alpha i

/-- State of the first labelling pass: the provisional `labels` array, the
union-find structure, and `nextLabel`. -/
structure LabelState where
  labels : List Nat
  uf : UnionFind
  nextLabel : Nat
deriving DecidableEq, Repr

/-- One iteration of the first pass at pixel `idx` (row-major, so
`x > 0 ↔ idx % width ≠ 0` and `y > 0 ↔ width ≤ idx`): skip background;
otherwise read the already-visited left and top neighbours' labels (0 when
absent or background), assign a fresh label when both are 0, the minimum and
a union when both are positive, and the nonzero one otherwise
(`leftLabel || topLabel`). -/
def labelStep (bin : Nat → Bool) (width : Nat) (st : LabelState) (idx : Nat) :
    LabelState :=
  if bin idx = false then st
  else
    let leftLabel := if idx % width ≠ 0 ∧ bin (idx - 1) = true then ufget st.labels (idx - 1) else 0
    let topLabel := if width ≤ idx ∧ bin (idx - width) = true then ufget st.labels (idx - width) else 0
    if leftLabel = 0 ∧ topLabel = 0 then
      ⟨lset st.labels idx st.nextLabel, st.uf, st.nextLabel + 1⟩
    else if 0 < leftLabel ∧ 0 < topLabel then
      ⟨lset st.labels idx (min leftLabel topLabel), st.uf.union leftLabel topLabel, st.nextLabel⟩
    else
      ⟨lset st.labels idx (if leftLabel ≠ 0 then leftLabel else topLabel), st.uf, st.nextLabel⟩

/-- The first pass: fold `labelStep` over the pixels in row-major order,
starting from zeroed labels, `new UnionFind(totalPixels + 1)` and
`nextLabel = 1`. -/
def firstPass (bin : Nat → Bool) (width height : Nat) : LabelState :=
  (List.range (width * height)).foldl (labelStep bin width)
    ⟨List.replicate (width * height) 0, UnionFind.init (width * height + 1), 1⟩

/-- One iteration of the second pass: flatten a positive label to its root
(threading the union-find structure, whose parent array the source's `find`
keeps compressing). -/
def flattenStep (st : List Nat × UnionFind) (i : Nat) : List Nat × UnionFind :=
  let l := ufget st.1 i
  if 0 < l then
    let f := st.2.find l
    (lset st.1 i f.2, f.1)
  else st

/-- Both passes: the final label array. -/
def finalLabels (bin : Nat → Bool) (width height : Nat) : List Nat :=
  ((List.range (width * height)).foldl flattenStep
    ((firstPass bin width height).labels, (firstPass bin width height).uf)).1

/-! ## Component measurement (Step 3 of both detectors) -/

/-- Per-component accumulator: pixel count, coordinate sums (used by the
pom-pom detector only; the island detector's map simply lacks these two
fields), and the bounding box.  The source initialises `minX, minY` to
`Infinity` and `maxX, maxY` to `-Infinity` and immediately folds the current
pixel in with `min`/`max`, which is the same as initialising the entry from
its first pixel as done here. -/
structure CompData where
  pixelCount : Nat
  sumX : Nat
  sumY : Nat
  minX : Nat
  maxX : Nat
  minY : Nat
  maxY : Nat
deriving DecidableEq, Repr

/-- Fold pixel `(x, y)` into the (insertion-ordered) component map at `label`:
update the entry in place when present, append a fresh entry otherwise. -/
def updateComp : List (Nat × CompData) → Nat → Nat → Nat → List (Nat × CompData)
  | [], label, x, y => [(label, ⟨1, x, y, x, x, y, y⟩)]
  | (l, c) :: rest, label, x, y =>
    if l = label then
      (l, ⟨c.pixelCount + 1, c.sumX + x, c.sumY + y,
        min c.minX x, max c.maxX x, min c.minY y, max c.maxY y⟩) :: rest
    else (l, c) :: updateComp rest label x y

/-- Step 3: scan the pixels in row-major order and accumulate each labelled
pixel into its component's entry (a JavaScript `Map` iterates in insertion
order, as this association list does). -/
def componentMap (width height : Nat) (labels : List Nat) : List (Nat × CompData) :=
  (List.range (width * height)).foldl
    (fun acc idx =>
      let label := ufget labels idx
      if label = 0 then acc
      else updateComp acc label (idx % width) (idx / width))
    []

/-! ## Island classification and output masks (island-detection module) -/

/-- `IslandDetectionConfig` with every field present (the source merges the
optional caller config over `DEFAULT_CONFIG`). -/
structure IslandConfig where
  targetAspectRatio : ℚ
  aspectTolerance : ℚ
  minRectangularity : ℚ
  minArea : ℚ
  maxAreaRatio : ℚ
deriving DecidableEq, Repr

/-- `DEFAULT_CONFIG` of the island detector: target aspect 1.5, tolerance
0.4, min rectangularity 0.6, min area 2000, max area ratio 0.15 (decimal
literals read exactly into `ℚ`). -/
def islandDefaultConfig : IslandConfig := ⟨3/2, 2/5, 3/5, 2000, 3/20⟩

/-- `ComponentInfo` as emitted by the island detector (the `aspectRatio`
field stores the normalised aspect, exactly as the source pushes
`aspectRatio: normalizedAspect`). -/
structure ComponentInfo where
  label : Nat
  pixelCount : Nat
  minX : Nat
  maxX : Nat
  minY : Nat
  maxY : Nat
  width : Nat
  height : Nat
  aspectRatio : ℚ
  rectangularity : ℚ
  isIsland : Bool
deriving DecidableEq, Repr

/-- Step 4 for one component: compute width/height/bounding area, the
normalised aspect `aspectRatio > 1 ? aspectRatio : 1 / aspectRatio`,
rectangularity and area ratio, and classify
`aspectOk && rectOk && sizeOk`. -/
def classifyComponent (cfg : IslandConfig) (totalPixels label : Nat) (c : CompData) :
    ComponentInfo :=
  let compWidth := c.maxX - c.minX + 1
  let compHeight := c.maxY - c.minY + 1
  let boundingArea := compWidth * compHeight
  let aspectRatio : ℚ := (compWidth : ℚ) / (compHeight : ℚ)
  let normalizedAspect := if 1 < aspectRatio then aspectRatio else 1 / aspectRatio
  let rectangularity : ℚ := (c.pixelCount : ℚ) / (boundingArea : ℚ)
  let areaRatio : ℚ := (c.pixelCount : ℚ) / (totalPixels : ℚ)
  let aspectOk := decide (|normalizedAspect - cfg.targetAspectRatio| < cfg.aspectTolerance)
  let rectOk := decide (cfg.minRectangularity ≤ rectangularity)
  let sizeOk := decide (cfg.minArea ≤ (c.pixelCount : ℚ)) && decide (areaRatio ≤ cfg.maxAreaRatio)
  ⟨label, c.pixelCount, c.minX, c.maxX, c.minY, c.maxY, compWidth, compHeight,
    normalizedAspect, rectangularity, aspectOk && rectOk && sizeOk⟩

/-- The labels classified as islands (`islandLabels`). -/
def islandLabels (cfg : IslandConfig) (totalPixels : Nat)
    (comps : List (Nat × CompData)) : List Nat :=
  (comps.filter (fun lc => (classifyComponent cfg totalPixels lc.1 lc.2).isIsland)).map
    (fun lc => lc.1)

/-- Step 5's per-pixel three-way case split: background pixels are water,
foreground pixels with an island label are islands, the remaining foreground
pixels are land. -/
inductive PixelKind where
  | island
  | land
  | water
deriving DecidableEq, Repr

/-- The result of `detectIslands`: the three output masks as per-pixel-index
predicates over the same `width × height` grid, and the component list (the
numeric `stats` counters are omitted). -/
structure IslandDetectionResult where
  islands : Nat → Bool
  land : Nat → Bool
  water : Nat → Bool
  components : List ComponentInfo

/-- Which of the three masks pixel `i` is written to, following the source's
`if (binary[i] === 0) … else if (islandLabels.has(label)) … else …`. -/
def pixelKind (alpha : Nat → Nat) (width height : Nat) (cfg : IslandConfig)
    (i : Nat) : PixelKind :=
  if binarize alpha i = false then .water
  else if (islandLabels cfg (width * height)
      (componentMap width height (finalLabels (binarize alpha) width height))).contains
      (ufget (finalLabels (binarize alpha) width height) i) then .island
  else .land

/-- `detectIslands(maskCanvas, config)`, for a raster given by its alpha
channel. -/
def detectIslands (alpha : Nat → Nat) (width height : Nat) (cfg : IslandConfig) :
    IslandDetectionResult :=
  let labels := finalLabels (binarize alpha) width height
  let comps := componentMap width height labels
  ⟨fun i => pixelKind alpha width height cfg i = .island,
   fun i => pixelKind alpha width height cfg i = .land,
   fun i => pixelKind alpha width height cfg i = .water,
   comps.map (fun lc => classifyComponent cfg (width * height) lc.1 lc.2)⟩

/-! ## Claim C2 -/

/-- C2: the three rasters returned by `detectIslands` partition the pixel
grid — every pixel is set in exactly one of `islands`, `land`, `water` (so in
particular `islands` and `land` are disjoint and the union covers every pixel
exactly once). -/
theorem C2_masks_partition (alpha : Nat → Nat) (width height : Nat)
    (cfg : IslandConfig) (i : Nat) (hi : i < width * height) :
    ((detectIslands alpha width height cfg).islands i).toNat +
      ((detectIslands alpha width height cfg).land i).toNat +
      ((detectIslands alpha width height cfg).water i).toNat = 1 := by
  simp only [detectIslands]
  cases h : pixelKind alpha width height cfg i <;> simp [h]

/-- Witness for C2: pixel 0 of a concrete 3×2 raster is in exactly one mask. -/
theorem C2_masks_partition_witness :
    0 < 3 * 2 ∧
      ((detectIslands (fun i => if i % 3 = 2 then 0 else 255) 3 2
            islandDefaultConfig).islands 0).toNat +
        ((detectIslands (fun i => if i % 3 = 2 then 0 else 255) 3 2
            islandDefaultConfig).land 0).toNat +
        ((detectIslands (fun i => if i % 3 = 2 then 0 else 255) 3 2
            islandDefaultConfig).water 0).toNat = 1 :=
  ⟨by decide, C2_masks_partition (fun i => if i % 3 = 2 then 0 else 255) 3 2
    islandDefaultConfig 0 (by decide)⟩

/-! ## Claim C4 -/

/-- The source's `aspectRatio > 1 ? aspectRatio : 1 / aspectRatio` with
`aspectRatio = w / h` equals `max w h / min w h` for positive dimensions. -/
theorem normalizedAspect_eq_max_div_min (a b : Nat) (ha : 1 ≤ a) (hb : 1 ≤ b) :
    (if 1 < (a : ℚ) / (b : ℚ) then (a : ℚ) / (b : ℚ) else 1 / ((a : ℚ) / (b : ℚ))) =
      ((max a b : Nat) : ℚ) / ((min a b : Nat) : ℚ) := by
  have ha' : (0 : ℚ) < (a : ℚ) := by exact_mod_cast ha
  have hb' : (0 : ℚ) < (b : ℚ) := by exact_mod_cast hb
  rcases lt_trichotomy a b with h | h | h
  · have hab : (a : ℚ) < (b : ℚ) := by exact_mod_cast h
    rw [if_neg (by rw [not_lt]; exact le_of_lt ((div_lt_one hb').mpr hab)),
      one_div_div, Nat.max_eq_right (le_of_lt h), Nat.min_eq_left (le_of_lt h)]
  · subst h
    rw [Nat.max_self, Nat.min_self, div_self (ne_of_gt ha'), if_neg (lt_irrefl 1),
      one_div_one]
  · have hab : (b : ℚ) < (a : ℚ) := by exact_mod_cast h
    rw [if_pos ((one_lt_div hb').mpr hab), Nat.max_eq_left (le_of_lt h),
      Nat.min_eq_right (le_of_lt h)]

/-- C4: a component found by `detectIslands` is classified as an island
exactly when `|normalizedAspect − targetAspect| < aspectTolerance`,
`rectangularity ≥ minRectangularity`, `pixelCount ≥ minArea` and
`pixelCount / totalPixels ≤ maxAreaRatio`, where
`normalizedAspect = max(w,h) / min(w,h)` and
`rectangularity = pixelCount / (w·h)`; the default configuration is
`(1.5, 0.4, 0.6, 2000, 0.15)`. -/
theorem C4_island_classification (alpha : Nat → Nat) (width height : Nat)
    (cfg : IslandConfig) (comp : ComponentInfo)
    (hmem : comp ∈ (detectIslands alpha width height cfg).components) :
    (comp.isIsland = true ↔
      |((max comp.width comp.height : Nat) : ℚ) / ((min comp.width comp.height : Nat) : ℚ) -
          cfg.targetAspectRatio| < cfg.aspectTolerance ∧
        cfg.minRectangularity ≤ (comp.pixelCount : ℚ) / ((comp.width : ℚ) * (comp.height : ℚ)) ∧
        cfg.minArea ≤ (comp.pixelCount : ℚ) ∧
        (comp.pixelCount : ℚ) / ((width : ℚ) * (height : ℚ)) ≤ cfg.maxAreaRatio) ∧
      islandDefaultConfig = ⟨3 / 2, 2 / 5, 3 / 5, 2000, 3 / 20⟩ := by
  refine ⟨?_, rfl⟩
  simp only [detectIslands, List.mem_map] at hmem
  obtain ⟨⟨l, c⟩, hlc, rfl⟩ := hmem
  simp only [classifyComponent, Bool.and_eq_true, decide_eq_true_eq]
  rw [normalizedAspect_eq_max_div_min (c.maxX - c.minX + 1) (c.maxY - c.minY + 1)
    (Nat.le_add_left 1 _) (Nat.le_add_left 1 _)]
  push_cast
  tauto

/-- Concrete raster for the C4 witness: a 3×2 grid whose right column is
transparent. -/
def c4AlphaEx : Nat → Nat := fun i => if i % 3 = 2 then 0 else 255

/-- The single component `detectIslands` finds in `c4AlphaEx` (a 2×2 square,
too small to be an island under the default thresholds). -/
def c4CompEx : ComponentInfo := ⟨1, 4, 0, 1, 0, 1, 2, 2, 1, 1, false⟩

/-- Witness for C4: the concrete component above is in the result and
satisfies the classification equivalence. -/
theorem C4_island_classification_witness :
    c4CompEx ∈ (detectIslands c4AlphaEx 3 2 islandDefaultConfig).components ∧
      ((c4CompEx.isIsland = true ↔
        |((max c4CompEx.width c4CompEx.height : Nat) : ℚ) /
            ((min c4CompEx.width c4CompEx.height : Nat) : ℚ) -
            islandDefaultConfig.targetAspectRatio| < islandDefaultConfig.aspectTolerance ∧
          islandDefaultConfig.minRectangularity ≤
            (c4CompEx.pixelCount : ℚ) / ((c4CompEx.width : ℚ) * (c4CompEx.height : ℚ)) ∧
          islandDefaultConfig.minArea ≤ (c4CompEx.pixelCount : ℚ) ∧
          (c4CompEx.pixelCount : ℚ) / ((3 : ℚ) * (2 : ℚ)) ≤ islandDefaultConfig.maxAreaRatio) ∧
        islandDefaultConfig = ⟨3 / 2, 2 / 5, 3 / 5, 2000, 3 / 20⟩) :=
  ⟨by decide, C4_island_classification c4AlphaEx 3 2 islandDefaultConfig c4CompEx (by decide)⟩

/-! ## Pom-pom detection (projection-config.ts) -/

/-- `PomPomDetectionConfig` with every field present. -/
structure PomPomConfig where
  minRadius : ℚ
  maxRadius : ℚ
  minCircularity : ℚ
deriving DecidableEq, Repr

/-- `DEFAULT_CONFIG` of `detectPomPoms`: min radius 10, max radius 100, min
circularity 0.6. -/
def pomPomDefaultConfig : PomPomConfig := ⟨10, 100, 3 / 5⟩

/-- The relaxed configuration of the detection call site in the control page:
`{ minRadius: 3, maxRadius: 200, minCircularity: 0.3 }`. -/
def relaxedPomPomConfig : PomPomConfig := ⟨3, 200, 3 / 10⟩

/-- `PomPomInfo` (the optional pre-sampled `color` is omitted). -/
structure PomPomInfo where
  index : Nat
  centerX : ℚ
  centerY : ℚ
  radius : ℚ
  pixelCount : Nat
  minX : Nat
  maxX : Nat
  minY : Nat
  maxY : Nat
  circularity : ℚ
deriving DecidableEq, Repr

/-- The filter of Step 4 of `detectPomPoms`
(`radiusOk && circularityOk && aspectOk`), parametrised by the value of
`Math.PI` (`π` is irrational, so the classifier is embedded over an arbitrary
rational `piA`; the equivalence proved below holds for every value):
`estimatedRadius = (bboxWidth + bboxHeight) / 4`,
`circularity = min(1, pixelCount / (π·r²))`,
`aspectOk = 0.4 < bboxWidth / bboxHeight < 2.5`. -/
def pomPomAccept (piA : ℚ) (cfg : PomPomConfig) (c : CompData) : Bool :=
  let bboxWidth := c.maxX - c.minX + 1
  let bboxHeight := c.maxY - c.minY + 1
  let estimatedRadius : ℚ := ((bboxWidth : ℚ) + (bboxHeight : ℚ)) / 4
  let expectedArea := piA * estimatedRadius * estimatedRadius
  let circularity := min 1 ((c.pixelCount : ℚ) / expectedArea)
  let aspectRatio : ℚ := (bboxWidth : ℚ) / (bboxHeight : ℚ)
  let aspectOk := decide (2 / 5 < aspectRatio) && decide (aspectRatio < 5 / 2)
  let radiusOk := decide (cfg.minRadius ≤ estimatedRadius) &&
    decide (estimatedRadius ≤ cfg.maxRadius)
  let circularityOk := decide (cfg.minCircularity ≤ circularity)
  radiusOk && circularityOk && aspectOk

/-- The `PomPomInfo` pushed for an accepted component with running `index`
`k`: centre at the coordinate means, `radius = estimatedRadius`. -/
def mkPomPomInfo (piA : ℚ) (k : Nat) (c : CompData) : PomPomInfo :=
  let bboxWidth := c.maxX - c.minX + 1
  let bboxHeight := c.maxY - c.minY + 1
  let estimatedRadius : ℚ := ((bboxWidth : ℚ) + (bboxHeight : ℚ)) / 4
  let expectedArea := piA * estimatedRadius * estimatedRadius
  ⟨k, (c.sumX : ℚ) / (c.pixelCount : ℚ), (c.sumY : ℚ) / (c.pixelCount : ℚ),
    estimatedRadius, c.pixelCount, c.minX, c.maxX, c.minY, c.maxY,
    min 1 ((c.pixelCount : ℚ) / expectedArea)⟩

/-- The accepted components turned into `PomPomInfo`s with the running
`index++` counter starting at `k`. -/
def mkPomPoms (piA : ℚ) (k : Nat) : List CompData → List PomPomInfo
  | [] => []
  | c :: cs => mkPomPomInfo piA k c :: mkPomPoms piA (k + 1) cs

/-- The in-place mutation `sortedByX.forEach((p, i) => (p.index = i))`,
functionally: rewrite the `index` fields to the positions, starting at `k`. -/
def reindexFrom (k : Nat) : List PomPomInfo → List PomPomInfo
  | [] => []
  | p :: ps => { p with index := k } :: reindexFrom (k + 1) ps

/-- The result `{ pomPoms, sortedByX }`.  In the source the two arrays hold
the same (mutated) objects; here object identity is modelled through the
pre-sort `index` fields, which are pairwise distinct: `sortedByX` is the
sorted, reindexed list, and `pomPoms` is the original list with each object's
`index` replaced by its position in the sorted order, which is what the
shared mutation makes the caller observe. -/
structure PomPomDetectionResult where
  pomPoms : List PomPomInfo
  sortedByX : List PomPomInfo

/-- `detectPomPoms(maskCanvas, config)`: binarise, label, measure, filter to
circular blobs, then sort by centre x (`[...pomPoms].sort((a, b) =>
a.center.x - b.center.x)`, a stable comparison sort, modelled by
`List.mergeSort`) and update every object's index to its sorted position. -/
def detectPomPoms (piA : ℚ) (alpha : Nat → Nat) (width height : Nat)
    (cfg : PomPomConfig) : PomPomDetectionResult :=
  let labels := finalLabels (binarize alpha) width height
  let comps := componentMap width height labels
  let raw := mkPomPoms piA 0
    ((comps.filter (fun lc => pomPomAccept piA cfg lc.2)).map (fun lc => lc.2))
  let sorted := raw.mergeSort (fun a b => a.centerX ≤ b.centerX)
  ⟨raw.map (fun p => { p with index := sorted.indexOf p }), reindexFrom 0 sorted⟩

/-! ## Claim C9 -/

/-- C9: a component passes the pom-pom filter of `detectPomPoms` exactly when
`minRadius ≤ estimatedRadius ≤ maxRadius`, `circularity ≥ minCircularity`
and `0.4 < w/h < 2.5`, with `estimatedRadius = (w + h)/4` and
`circularity = min(1, pixelCount/(π·r²))` (for any positive stand-in for
`Math.PI`; both sides of the equivalence use the same value); the default
configuration is `(10, 100, 0.6)` and the control page's relaxed call site
uses `(3, 200, 0.3)`. -/
theorem C9_pompom_classification (piA : ℚ) (cfg : PomPomConfig) (c : CompData) :
    (pomPomAccept piA cfg c = true ↔
      (cfg.minRadius ≤ (((c.maxX - c.minX + 1 : Nat) : ℚ) + ((c.maxY - c.minY + 1 : Nat) : ℚ)) / 4 ∧
        (((c.maxX - c.minX + 1 : Nat) : ℚ) + ((c.maxY - c.minY + 1 : Nat) : ℚ)) / 4 ≤ cfg.maxRadius ∧
        cfg.minCircularity ≤ min 1 ((c.pixelCount : ℚ) /
          (piA * ((((c.maxX - c.minX + 1 : Nat) : ℚ) + ((c.maxY - c.minY + 1 : Nat) : ℚ)) / 4) *
            ((((c.maxX - c.minX + 1 : Nat) : ℚ) + ((c.maxY - c.minY + 1 : Nat) : ℚ)) / 4))) ∧
        2 / 5 < ((c.maxX - c.minX + 1 : Nat) : ℚ) / ((c.maxY - c.minY + 1 : Nat) : ℚ) ∧
        ((c.maxX - c.minX + 1 : Nat) : ℚ) / ((c.maxY - c.minY + 1 : Nat) : ℚ) < 5 / 2)) ∧
      pomPomDefaultConfig = ⟨10, 100, 3 / 5⟩ ∧ relaxedPomPomConfig = ⟨3, 200, 3 / 10⟩ := by
  refine ⟨?_, rfl, rfl⟩
  simp only [pomPomAccept, Bool.and_eq_true, decide_eq_true_eq]
  tauto

/-! ## Claim C10 -/

/-- `reindexFrom` preserves length. -/
theorem reindexFrom_length : ∀ (l : List PomPomInfo) (k : Nat),
    (reindexFrom k l).length = l.length
  | [], _ => rfl
  | _ :: ps, k => by simp [reindexFrom, reindexFrom_length ps (k + 1)]

/-- `reindexFrom` does not change the centre x coordinates. -/
theorem reindexFrom_map_centerX : ∀ (l : List PomPomInfo) (k : Nat),
    (reindexFrom k l).map PomPomInfo.centerX = l.map PomPomInfo.centerX
  | [], _ => rfl
  | _ :: ps, k => by simp [reindexFrom, reindexFrom_map_centerX ps (k + 1)]

/-- After `reindexFrom k`, the index fields read `k, k+1, …` in order. -/
theorem reindexFrom_map_index : ∀ (l : List PomPomInfo) (k : Nat),
    (reindexFrom k l).map PomPomInfo.index = List.range' k l.length
  | [], _ => rfl
  | _ :: ps, k => by simp [reindexFrom, List.range', reindexFrom_map_index ps (k + 1)]

/-- Entry `i` of `reindexFrom k l` is entry `i` of `l` with index `k + i`. -/
theorem reindexFrom_get : ∀ (l : List PomPomInfo) (k i : Nat) (h : i < l.length),
    (reindexFrom k l).get ⟨i, by rw [reindexFrom_length]; exact h⟩ =
      { l.get ⟨i, h⟩ with index := k + i }
  | _ :: _, _, 0, _ => rfl
  | _ :: ps, k, i + 1, h => by
    have := reindexFrom_get ps (k + 1) i (Nat.lt_of_succ_lt_succ h)
    simpa [reindexFrom, Nat.add_assoc, Nat.add_comm 1 i] using this

/-- On a duplicate-free list, rewriting each index to its position equals
mapping each element to itself with its `indexOf`. -/
theorem reindexFrom_eq_map_indexOf (l : List PomPomInfo) (hnd : l.Nodup) :
    reindexFrom 0 l = l.map (fun p => { p with index := l.indexOf p }) := by
  apply List.ext_get
  · rw [reindexFrom_length, List.length_map]
  · intro i h1 h2
    have h : i < l.length := by rw [reindexFrom_length] at h1; exact h1
    rw [List.get_map]
    have := reindexFrom_get l 0 i h
    rw [List.get_eq_getElem, List.get_eq_getElem] at *
    rw [this]
    have hidx : l.indexOf l[i] = i := List.indexOf_getElem hnd i h
    simp [hidx]

/-- The indices produced by the `index++` counter of `detectPomPoms`. -/
theorem mkPomPoms_map_index (piA : ℚ) : ∀ (k : Nat) (cs : List CompData),
    (mkPomPoms piA k cs).map PomPomInfo.index = List.range' k cs.length
  | _, [] => rfl
  | k, _ :: cs => by
    simp [mkPomPoms, mkPomPomInfo, List.range', mkPomPoms_map_index piA (k + 1) cs]

/-- The raw pom-pom list is duplicate-free: its index fields are. -/
theorem mkPomPoms_nodup (piA : ℚ) (k : Nat) (cs : List CompData) :
    (mkPomPoms piA k cs).Nodup :=
  List.Nodup.of_map PomPomInfo.index
    (by rw [mkPomPoms_map_index]; exact List.nodup_range' k cs.length)

/-- A throwaway `PomPomInfo` used as the `getD` default. -/
def pomPomZero : PomPomInfo := ⟨0, 0, 0, 0, 0, 0, 0, 0, 0, 0⟩

/-- Sorting and reindexing spec for an arbitrary duplicate-free raw list:
the four facts claimed of `detectPomPoms`' result. -/
theorem detect_sort_spec (raw : List PomPomInfo) (hnd : raw.Nodup) :
    (reindexFrom 0 (raw.mergeSort (fun a b => a.centerX ≤ b.centerX))).Pairwise
        (fun a b => a.centerX ≤ b.centerX) ∧
      (reindexFrom 0 (raw.mergeSort (fun a b => a.centerX ≤ b.centerX))).map
          PomPomInfo.index =
        List.range (reindexFrom 0 (raw.mergeSort (fun a b => a.centerX ≤ b.centerX))).length ∧
      (raw.map (fun p =>
          { p with index := (raw.mergeSort (fun a b => a.centerX ≤ b.centerX)).indexOf p })).Perm
        (reindexFrom 0 (raw.mergeSort (fun a b => a.centerX ≤ b.centerX))) ∧
      (raw.map (fun p =>
          { p with index := (raw.mergeSort (fun a b => a.centerX ≤ b.centerX)).indexOf p })).map
          (fun p =>
            (reindexFrom 0 (raw.mergeSort (fun a b => a.centerX ≤ b.centerX))).getD p.index
              pomPomZero) =
        raw.map (fun p =>
          { p with index := (raw.mergeSort (fun a b => a.centerX ≤ b.centerX)).indexOf p }) := by
  have hperm : List.Perm (raw.mergeSort (fun a b => a.centerX ≤ b.centerX)) raw :=
    List.mergeSort_perm raw _
  have hndsorted : (raw.mergeSort (fun a b => a.centerX ≤ b.centerX)).Nodup :=
    hperm.nodup_iff.mpr hnd
  have hsorted : (raw.mergeSort (fun a b => a.centerX ≤ b.centerX)).Pairwise
      (fun a b => (decide (a.centerX ≤ b.centerX) : Bool) = true) :=
    List.sorted_mergeSort
      (fun a b c h1 h2 => by
        simp only [decide_eq_true_eq] at *
        exact le_trans h1 h2)
      (fun a b => by
        simp only [Bool.or_eq_true, decide_eq_true_eq]
        exact le_total a.centerX b.centerX)
      raw
  refine ⟨?_, ?_, ?_, ?_⟩
  · have h1 : (raw.mergeSort (fun a b => a.centerX ≤ b.centerX)).Pairwise
        (fun a b => a.centerX ≤ b.centerX) :=
      hsorted.imp (fun h => by simpa using h)
    have h2 : ((raw.mergeSort (fun a b => a.centerX ≤ b.centerX)).map
        PomPomInfo.centerX).Pairwise (· ≤ ·) := List.pairwise_map.mpr h1
    have h3 : (((reindexFrom 0 (raw.mergeSort (fun a b => a.centerX ≤ b.centerX))).map
        PomPomInfo.centerX)).Pairwise (· ≤ ·) := by
      rw [reindexFrom_map_centerX]
      exact h2
    exact List.pairwise_map.mp h3
  · rw [reindexFrom_map_index, reindexFrom_length, List.range_eq_range']
  · rw [reindexFrom_eq_map_indexOf _ hndsorted]
    exact (hperm.symm.map _)
  · rw [List.map_map]
    apply List.map_congr_left
    intro q hq
    have hmemq : q ∈ raw.mergeSort (fun a b => a.centerX ≤ b.centerX) :=
      hperm.symm.subset hq
    have hidxlt : (raw.mergeSort (fun a b => a.centerX ≤ b.centerX)).indexOf q <
        (raw.mergeSort (fun a b => a.centerX ≤ b.centerX)).length :=
      List.indexOf_lt_length.mpr hmemq
    simp only [Function.comp]
    have hlt2 : List.indexOf q (raw.mergeSort (fun a b => a.centerX ≤ b.centerX)) <
        (reindexFrom 0 (raw.mergeSort (fun a b => a.centerX ≤ b.centerX))).length := by
      rw [reindexFrom_length]
      exact hidxlt
    rw [List.getD_eq_getElem _ _ hlt2]
    have hg := reindexFrom_get (raw.mergeSort (fun a b => a.centerX ≤ b.centerX)) 0 _ hidxlt
    rw [List.get_eq_getElem, List.get_eq_getElem] at hg
    rw [hg, List.getElem_indexOf hidxlt]
    simp

/-- C10: in the result of `detectPomPoms`, `sortedByX` is sorted ascending by
centre x and its `index` fields are `0, 1, 2, …` in order; `pomPoms` holds
the same (mutated) objects — a permutation of `sortedByX` — and looking each
`pomPoms` entry up in `sortedByX` at its own `index` finds that same entry,
so indices observed through `pomPoms` reflect the left-to-right order. -/
theorem C10_sorted_by_x (piA : ℚ) (alpha : Nat → Nat) (width height : Nat)
    (cfg : PomPomConfig) :
    (detectPomPoms piA alpha width height cfg).sortedByX.Pairwise
        (fun a b => a.centerX ≤ b.centerX) ∧
      (detectPomPoms piA alpha width height cfg).sortedByX.map PomPomInfo.index =
        List.range (detectPomPoms piA alpha width height cfg).sortedByX.length ∧
      ((detectPomPoms piA alpha width height cfg).pomPoms).Perm
        ((detectPomPoms piA alpha width height cfg).sortedByX) ∧
      (detectPomPoms piA alpha width height cfg).pomPoms.map
          (fun p => (detectPomPoms piA alpha width height cfg).sortedByX.getD p.index
            pomPomZero) =
        (detectPomPoms piA alpha width height cfg).pomPoms := by
  simp only [detectPomPoms]
  exact detect_sort_spec _ (mkPomPoms_nodup _ _ _)

/-! ## Claim C5: union-find correctness infrastructure

The two-pass labelling is proved correct against 4-connectivity.  The
development characterises union-find roots relationally (`reachesRoot`),
shows the fuelled `find` computes them and that path compression, linking
and the two passes preserve them, and finally relates label equality to an
inductively defined connectivity relation on the pixel grid. -/

/-- `lset` preserves length. -/
theorem lset_length {α : Type} : ∀ (l : List α) (i : Nat) (v : α),
    (lset l i v).length = l.length
  | [], _, _ => rfl
  | _ :: _, 0, _ => rfl
  | _ :: xs, n + 1, v => by simp [lset, lset_length xs n v]

/-- Reading the written entry. -/
theorem ufget_lset_self : ∀ (l : List Nat) (i : Nat) (v : Nat), i < l.length →
    ufget (lset l i v) i = v
  | _ :: _, 0, _, _ => rfl
  | _ :: xs, n + 1, v, h => ufget_lset_self xs n v (Nat.lt_of_succ_lt_succ h)

/-- Reading another entry. -/
theorem ufget_lset_other : ∀ (l : List Nat) (i j : Nat) (v : Nat), i ≠ j →
    ufget (lset l i v) j = ufget l j
  | [], _, _, _, _ => rfl
  | _ :: _, 0, 0, _, h => absurd rfl h
  | _ :: _, 0, _ + 1, _, _ => rfl
  | _ :: _, _ + 1, 0, _, _ => rfl
  | _ :: xs, i + 1, j + 1, v, h =>
    ufget_lset_other xs i j v (fun e => h (by rw [e]))

/-- One parent-pointer step (to a different node). -/
def pstep (parent : List Nat) (x y : Nat) : Prop :=
  ufget parent x = y ∧ y ≠ x

/-- A node is a root when it is its own parent. -/
def isRootP (parent : List Nat) (x : Nat) : Prop := ufget parent x = x

/-- `x`'s parent chain ends at the root `r`. -/
def reachesRoot (parent : List Nat) (x r : Nat) : Prop :=
  Relation.ReflTransGen (pstep parent) x r ∧ isRootP parent r

/-- Two nodes are in the same class when they share a root. -/
def rootEq (parent : List Nat) (x y : Nat) : Prop :=
  ∃ r, reachesRoot parent x r ∧ reachesRoot parent y r

/-- Two parent arrays with identical root structure. -/
def SameRoots (p q : List Nat) : Prop :=
  ∀ y r, reachesRoot p y r ↔ reachesRoot q y r

theorem SameRoots.refl (p : List Nat) : SameRoots p p := fun _ _ => Iff.rfl

theorem SameRoots.trans {p q s : List Nat} (h1 : SameRoots p q) (h2 : SameRoots q s) :
    SameRoots p s := fun y r => (h1 y r).trans (h2 y r)

theorem SameRoots.rootEq_iff {p q : List Nat} (h : SameRoots p q) (x y : Nat) :
    rootEq p x y ↔ rootEq q x y := by
  unfold rootEq
  constructor
  · rintro ⟨r, h1, h2⟩
    exact ⟨r, (h x r).mp h1, (h y r).mp h2⟩
  · rintro ⟨r, h1, h2⟩
    exact ⟨r, (h x r).mpr h1, (h y r).mpr h2⟩

/-- A root reaches only itself. -/
theorem reach_of_root {parent : List Nat} {x r : Nat} (hx : isRootP parent x)
    (h : Relation.ReflTransGen (pstep parent) x r) : r = x := by
  rcases Relation.ReflTransGen.cases_head h with heq | ⟨c, hc, _⟩
  · exact heq.symm
  · exact absurd (hc.1.symm.trans hx) hc.2

/-- Chains are deterministic: any intermediate node still reaches the root. -/
theorem reach_extend {parent : List Nat} {x r y : Nat}
    (hr : reachesRoot parent x r)
    (hy : Relation.ReflTransGen (pstep parent) x y) :
    Relation.ReflTransGen (pstep parent) y r := by
  induction hy with
  | refl => exact hr.1
  | tail hxb hstep ih =>
    rcases Relation.ReflTransGen.cases_head ih with heq | ⟨d, hd, hdr⟩
    · subst heq
      exact absurd (hstep.1.symm.trans hr.2) hstep.2
    · have : d = _ := hd.1.symm.trans hstep.1
      subst this
      exact hdr

/-- Uniqueness of the root. -/
theorem reachesRoot_unique {parent : List Nat} {x r1 r2 : Nat}
    (h1 : reachesRoot parent x r1) (h2 : reachesRoot parent x r2) : r1 = r2 := by
  have h3 := reach_extend h1 h2.1
  exact reach_of_root h2.2 h3

/-- A node reaches itself as a root exactly when it is a root. -/
theorem reachesRoot_self_iff (parent : List Nat) (z : Nat) :
    reachesRoot parent z z ↔ isRootP parent z :=
  ⟨fun h => h.2, fun h => ⟨Relation.ReflTransGen.refl, h⟩⟩

/-- The union-find well-formedness invariant: ranks array as long as parents,
parents in range, and rank strictly increasing along non-trivial parent
links.  It rules out parent cycles. -/
structure UFInv (uf : UnionFind) : Prop where
  rank_len : uf.rank.length = uf.parent.length
  parent_lt : ∀ x, x < uf.parent.length → ufget uf.parent x < uf.parent.length
  rank_ord : ∀ x, x < uf.parent.length → ufget uf.parent x = x ∨
    ufget uf.rank x < ufget uf.rank (ufget uf.parent x)

/-- Parent chains stay in range. -/
theorem reach_lt {uf : UnionFind} (hinv : UFInv uf) {x y : Nat}
    (hx : x < uf.parent.length)
    (h : Relation.ReflTransGen (pstep uf.parent) x y) : y < uf.parent.length := by
  induction h with
  | refl => exact hx
  | tail hxb hstep ih =>
    have := hinv.parent_lt _ ih
    rw [hstep.1] at this
    exact this

/-- Rank is monotone along chains. -/
theorem rank_le_of_reach {uf : UnionFind} (hinv : UFInv uf) {x y : Nat}
    (hx : x < uf.parent.length)
    (h : Relation.ReflTransGen (pstep uf.parent) x y) :
    ufget uf.rank x ≤ ufget uf.rank y := by
  induction h with
  | refl => exact le_refl _
  | tail hxb hstep ih =>
    have hb := reach_lt hinv hx hxb
    rcases hinv.rank_ord _ hb with hroot | hlt
    · exact absurd (hstep.1.symm.trans hroot) hstep.2
    · rw [hstep.1] at hlt
      exact le_trans ih (le_of_lt hlt)

/-- Rank strictly increases to a different chain node. -/
theorem rank_lt_of_reach {uf : UnionFind} (hinv : UFInv uf) {x y : Nat}
    (hx : x < uf.parent.length)
    (h : Relation.ReflTransGen (pstep uf.parent) x y) (hne : x ≠ y) :
    ufget uf.rank x < ufget uf.rank y := by
  rcases Relation.ReflTransGen.cases_head h with heq | ⟨c, hc, hcy⟩
  · exact absurd heq hne
  · rcases hinv.rank_ord _ hx with hroot | hlt
    · exact absurd (hc.1.symm.trans hroot) hc.2
    · rw [hc.1] at hlt
      have hcn : c < uf.parent.length := by
        have := hinv.parent_lt _ hx
        rw [hc.1] at this
        exact this
      exact lt_of_lt_of_le hlt (rank_le_of_reach hinv hcn hcy)

/-- The decreasing measure that bounds parent-chain length: how many nodes
have strictly larger rank. -/
def ufMeasure (uf : UnionFind) (x : Nat) : Nat :=
  ((Finset.range uf.parent.length).filter
    (fun y => ufget uf.rank x < ufget uf.rank y)).card

theorem ufMeasure_le (uf : UnionFind) (x : Nat) :
    ufMeasure uf x ≤ uf.parent.length := by
  unfold ufMeasure
  exact le_trans (Finset.card_filter_le _ _) (by simp)

theorem ufMeasure_parent_lt {uf : UnionFind} (hinv : UFInv uf) {x : Nat}
    (hx : x < uf.parent.length) (hnr : ufget uf.parent x ≠ x) :
    ufMeasure uf (ufget uf.parent x) < ufMeasure uf x := by
  rcases hinv.rank_ord _ hx with hroot | hlt
  · exact absurd hroot hnr
  · apply Finset.card_lt_card
    constructor
    · intro y hy
      simp only [Finset.mem_filter, Finset.mem_range] at *
      exact ⟨hy.1, lt_trans hlt hy.2⟩
    · intro hsub
      have hmem : ufget uf.parent x ∈ (Finset.range uf.parent.length).filter
          (fun y => ufget uf.rank x < ufget uf.rank y) := by
        simp only [Finset.mem_filter, Finset.mem_range]
        exact ⟨hinv.parent_lt _ hx, hlt⟩
      have := hsub hmem
      simp only [Finset.mem_filter] at this
      exact absurd this.2 (lt_irrefl _)

theorem ufMeasure_zero_root {uf : UnionFind} (hinv : UFInv uf) {x : Nat}
    (hx : x < uf.parent.length) (hm : ufMeasure uf x = 0) :
    isRootP uf.parent x := by
  by_contra hnr
  rcases hinv.rank_ord _ hx with hroot | hlt
  · exact hnr hroot
  · have hmem : ufget uf.parent x ∈ (Finset.range uf.parent.length).filter
        (fun y => ufget uf.rank x < ufget uf.rank y) := by
      simp only [Finset.mem_filter, Finset.mem_range]
      exact ⟨hinv.parent_lt _ hx, hlt⟩
    have := Finset.card_pos.mpr ⟨_, hmem⟩
    unfold ufMeasure at hm
    omega

/-- Characterisation of parent steps after overwriting entry `x` with `r`. -/
theorem pstep_lset_iff (parent : List Nat) (x r a b : Nat) (hx : x < parent.length)
    (hrx : r ≠ x) :
    pstep (lset parent x r) a b ↔ ((a = x ∧ b = r) ∨ (a ≠ x ∧ pstep parent a b)) := by
  unfold pstep
  by_cases hax : a = x
  · subst hax
    rw [ufget_lset_self _ _ _ hx]
    constructor
    · rintro ⟨he, _⟩
      exact Or.inl ⟨rfl, he.symm⟩
    · rintro (⟨_, hbr⟩ | ⟨hna, _⟩)
      · exact ⟨hbr.symm, by rw [hbr]; exact hrx⟩
      · exact absurd rfl hna
  · rw [ufget_lset_other _ _ _ _ (fun e2 => hax e2.symm)]
    constructor
    · intro h
      exact Or.inr ⟨hax, h⟩
    · rintro (⟨hax2, _⟩ | ⟨_, h⟩)
      · exact absurd hax2 hax
      · exact h

/-- Paths in the compressed array embed into the original one. -/
theorem compress_path_forward (parent : List Nat) (x r : Nat) (hx : x < parent.length)
    (hnr : ¬ isRootP parent x) (hr : reachesRoot parent x r) :
    ∀ y e, Relation.ReflTransGen (pstep (lset parent x r)) y e →
      Relation.ReflTransGen (pstep parent) y e := by
  have hrx : r ≠ x := fun e2 => hnr (e2 ▸ hr.2)
  intro y e h
  induction h with
  | refl => exact .refl
  | tail hyb hstep ih =>
    rcases (pstep_lset_iff parent x r _ _ hx hrx).mp hstep with ⟨hax, hbr⟩ | ⟨_, hp⟩
    · subst hax
      subst hbr
      exact ih.trans hr.1
    · exact ih.tail hp

/-- Paths to a root in the original array embed into the compressed one. -/
theorem compress_path_backward (parent : List Nat) (x r : Nat) (hx : x < parent.length)
    (hnr : ¬ isRootP parent x) (hr : reachesRoot parent x r) :
    ∀ y e, Relation.ReflTransGen (pstep parent) y e → isRootP parent e →
      Relation.ReflTransGen (pstep (lset parent x r)) y e := by
  have hrx : r ≠ x := fun e2 => hnr (e2 ▸ hr.2)
  intro y e h hroot
  induction h using Relation.ReflTransGen.head_induction_on with
  | refl => exact .refl
  | head hstep htail ih =>
    rename_i a c
    by_cases hax : a = x
    · have hstep2 : pstep parent x c := hax ▸ hstep
      have he : e = r := reachesRoot_unique
        ⟨Relation.ReflTransGen.head hstep2 htail, hroot⟩ hr
      rw [hax, he]
      exact Relation.ReflTransGen.single
        ((pstep_lset_iff parent x r _ _ hx hrx).mpr (Or.inl ⟨rfl, rfl⟩))
    · exact Relation.ReflTransGen.head
        ((pstep_lset_iff parent x r _ _ hx hrx).mpr (Or.inr ⟨hax, hstep⟩)) ih

/-- Path compression does not change any node's root. -/
theorem compress_SameRoots (parent : List Nat) (x r : Nat) (hx : x < parent.length)
    (hnr : ¬ isRootP parent x) (hr : reachesRoot parent x r) :
    SameRoots (lset parent x r) parent := by
  have hrx : r ≠ x := fun e2 => hnr (e2 ▸ hr.2)
  have hrooti : ∀ z, isRootP (lset parent x r) z ↔ isRootP parent z := by
    intro z
    by_cases hzx : z = x
    · subst hzx
      unfold isRootP
      rw [ufget_lset_self _ _ _ hx]
      exact ⟨fun hzz => absurd hzz hrx, fun hzz => absurd hzz hnr⟩
    · unfold isRootP
      rw [ufget_lset_other _ _ _ _ (fun e2 => hzx e2.symm)]
  intro y e
  constructor
  · rintro ⟨hp, hrt⟩
    exact ⟨compress_path_forward parent x r hx hnr hr y e hp, (hrooti e).mp hrt⟩
  · rintro ⟨hp, hrt⟩
    exact ⟨compress_path_backward parent x r hx hnr hr y e hp hrt, (hrooti e).mpr hrt⟩

/-- No parent step leaves a root. -/
theorem no_step_from_root {parent : List Nat} {r1 b : Nat} (hr1 : isRootP parent r1)
    (h : pstep parent r1 b) : False :=
  h.2 (h.1.symm.trans hr1)

/-- Old paths survive linking `r1 → r2` as long as they never step from `r1`
(no path does, `r1` being a root). -/
theorem link_path_embed (parent : List Nat) (r1 r2 : Nat) (hx : r1 < parent.length)
    (hr1 : isRootP parent r1) (hne : r2 ≠ r1) :
    ∀ y e, Relation.ReflTransGen (pstep parent) y e →
      Relation.ReflTransGen (pstep (lset parent r1 r2)) y e := by
  intro y e h
  induction h with
  | refl => exact .refl
  | tail hyb hstep ih =>
    rename_i b c
    have hb : b ≠ r1 := fun e2 => no_step_from_root hr1 (e2 ▸ hstep)
    exact ih.tail ((pstep_lset_iff parent r1 r2 _ _ hx hne).mpr (Or.inr ⟨hb, hstep⟩))

/-- New paths after linking decompose into old paths, possibly crossing the
new `r1 → r2` edge once at the end of the old chain. -/
theorem link_path_split (parent : List Nat) (r1 r2 : Nat) (hx : r1 < parent.length)
    (hr1 : isRootP parent r1) (hne : r2 ≠ r1) :
    ∀ y e, Relation.ReflTransGen (pstep (lset parent r1 r2)) y e →
      Relation.ReflTransGen (pstep parent) y e ∨
        (Relation.ReflTransGen (pstep parent) y r1 ∧
          Relation.ReflTransGen (pstep parent) r2 e) := by
  intro y e h
  induction h with
  | refl => exact Or.inl .refl
  | tail hyb hstep ih =>
    rcases (pstep_lset_iff parent r1 r2 _ _ hx hne).mp hstep with ⟨hbr1, her2⟩ | ⟨_, hp⟩
    · subst hbr1
      subst her2
      rcases ih with h1 | ⟨h1, _⟩
      · exact Or.inr ⟨h1, .refl⟩
      · exact Or.inr ⟨h1, .refl⟩
    · rcases ih with h1 | ⟨h1, h2⟩
      · exact Or.inl (h1.tail hp)
      · exact Or.inr ⟨h1, h2.tail hp⟩

/-- The effect of linking root `r1` under root `r2` on every node's root. -/
theorem link_reach_iff (parent : List Nat) (r1 r2 : Nat) (hx : r1 < parent.length)
    (hr1 : isRootP parent r1) (hr2 : isRootP parent r2) (hne : r1 ≠ r2) :
    ∀ y e, reachesRoot (lset parent r1 r2) y e ↔
      ((reachesRoot parent y r1 ∧ e = r2) ∨ (reachesRoot parent y e ∧ e ≠ r1)) := by
  have hne2 : r2 ≠ r1 := hne.symm
  have hrooti : ∀ z, z ≠ r1 → (isRootP (lset parent r1 r2) z ↔ isRootP parent z) := by
    intro z hz
    unfold isRootP
    rw [ufget_lset_other _ _ _ _ (fun e2 => hz e2.symm)]
  have hnotroot : ¬ isRootP (lset parent r1 r2) r1 := by
    unfold isRootP
    rw [ufget_lset_self _ _ _ hx]
    exact hne2
  intro y e
  constructor
  · rintro ⟨hp, hrt⟩
    have her1 : e ≠ r1 := fun e2 => hnotroot (e2 ▸ hrt)
    have hrte : isRootP parent e := (hrooti e her1).mp hrt
    rcases link_path_split parent r1 r2 hx hr1 hne2 y e hp with h1 | ⟨h1, h2⟩
    · exact Or.inr ⟨⟨h1, hrte⟩, her1⟩
    · have : e = r2 := reach_of_root hr2 h2
      exact Or.inl ⟨⟨h1, hr1⟩, this⟩
  · rintro (⟨⟨hp, _⟩, he⟩ | ⟨⟨hp, hrt⟩, her1⟩)
    · rw [he]
      refine ⟨?_, ?_⟩
      · exact (link_path_embed parent r1 r2 hx hr1 hne2 y r1 hp).tail
          ((pstep_lset_iff parent r1 r2 _ _ hx hne2).mpr (Or.inl ⟨rfl, rfl⟩))
      · unfold isRootP
        rw [ufget_lset_other _ _ _ _ hne]
        exact hr2
    · exact ⟨link_path_embed parent r1 r2 hx hr1 hne2 y e hp, (hrooti e her1).mpr hrt⟩

/-- Specification of the fuelled, path-compressing `find`: with enough fuel
(the measure bounds the chain length) it returns the root of `x`, keeps the
rank array, array lengths, the invariant and every node's root unchanged. -/
theorem findAux_spec (uf : UnionFind) (hinv : UFInv uf) :
    ∀ fuel x, x < uf.parent.length → ufMeasure uf x ≤ fuel →
      (UnionFind.findAux fuel uf x).1.parent.length = uf.parent.length ∧
      (UnionFind.findAux fuel uf x).1.rank = uf.rank ∧
      UFInv (UnionFind.findAux fuel uf x).1 ∧
      SameRoots (UnionFind.findAux fuel uf x).1.parent uf.parent ∧
      reachesRoot uf.parent x (UnionFind.findAux fuel uf x).2 := by
  intro fuel
  induction fuel with
  | zero =>
    intro x hx hm
    have hroot : isRootP uf.parent x := ufMeasure_zero_root hinv hx (Nat.le_zero.mp hm)
    exact ⟨rfl, rfl, hinv, SameRoots.refl _, ⟨.refl, hroot⟩⟩
  | succ fuel ih =>
    intro x hx hm
    by_cases hroot : ufget uf.parent x = x
    · have heq : UnionFind.findAux (fuel + 1) uf x = (uf, x) := by
        simp only [UnionFind.findAux, hroot, if_pos]
      rw [heq]
      exact ⟨rfl, rfl, hinv, SameRoots.refl _, ⟨.refl, hroot⟩⟩
    · have hp : ufget uf.parent x < uf.parent.length := hinv.parent_lt _ hx
      have hm2 : ufMeasure uf (ufget uf.parent x) ≤ fuel := by
        have := ufMeasure_parent_lt hinv hx hroot
        omega
      obtain ⟨hlen, hrank, hinv2, hsame, hreach⟩ := ih (ufget uf.parent x) hp hm2
      have hreachx : reachesRoot uf.parent x
          (UnionFind.findAux fuel uf (ufget uf.parent x)).2 :=
        ⟨Relation.ReflTransGen.head ⟨rfl, hroot⟩ hreach.1, hreach.2⟩
      have hreach1 : reachesRoot (UnionFind.findAux fuel uf (ufget uf.parent x)).1.parent x
          (UnionFind.findAux fuel uf (ufget uf.parent x)).2 :=
        (hsame _ _).mpr hreachx
      have hnr1 : ¬ isRootP (UnionFind.findAux fuel uf (ufget uf.parent x)).1.parent x := by
        intro hc
        have : reachesRoot uf.parent x x :=
          (hsame _ _).mp ((reachesRoot_self_iff _ _).mpr hc)
        exact hroot this.2
      have hx1 : x < (UnionFind.findAux fuel uf (ufget uf.parent x)).1.parent.length := by
        rw [hlen]
        exact hx
      have hrlt : (UnionFind.findAux fuel uf (ufget uf.parent x)).2 < uf.parent.length :=
        reach_lt hinv hx hreachx.1
      have hrnex : (UnionFind.findAux fuel uf (ufget uf.parent x)).2 ≠ x := by
        intro hc
        exact hroot (hc ▸ hreachx.2)
      have hcsame : SameRoots
          (lset (UnionFind.findAux fuel uf (ufget uf.parent x)).1.parent x
            (UnionFind.findAux fuel uf (ufget uf.parent x)).2)
          (UnionFind.findAux fuel uf (ufget uf.parent x)).1.parent :=
        compress_SameRoots _ _ _ hx1 hnr1 hreach1
      have heq : UnionFind.findAux (fuel + 1) uf x =
          (⟨lset (UnionFind.findAux fuel uf (ufget uf.parent x)).1.parent x
              (UnionFind.findAux fuel uf (ufget uf.parent x)).2,
            (UnionFind.findAux fuel uf (ufget uf.parent x)).1.rank⟩,
           (UnionFind.findAux fuel uf (ufget uf.parent x)).2) := by
        simp only [UnionFind.findAux, hroot, if_neg, ite_false]
      rw [heq]
      refine ⟨?_, ?_, ?_, ?_, ?_⟩
      · simp only [lset_length]
        exact hlen
      · exact hrank
      · constructor
        · simp only [lset_length, hrank, hlen, hinv.rank_len]
        · intro z hz
          simp only [lset_length] at hz
          by_cases hzx : z = x
          · subst hzx
            rw [ufget_lset_self _ _ _ hx1]
            simp only [lset_length, hlen]
            exact hrlt
          · rw [ufget_lset_other _ _ _ _ (fun e2 => hzx e2.symm)]
            simp only [lset_length]
            exact hinv2.parent_lt _ hz
        · intro z hz
          simp only [lset_length] at hz
          by_cases hzx : z = x
          · subst hzx
            rw [ufget_lset_self _ _ _ hx1]
            right
            rw [hrank]
            exact rank_lt_of_reach hinv hx hreachx.1 (fun e2 => hrnex e2.symm)
          · rw [ufget_lset_other _ _ _ _ (fun e2 => hzx e2.symm)]
            exact hinv2.rank_ord _ hz
      · exact hcsame.trans hsame
      · exact hreachx

/-- `find` with its actual fuel (the array size). -/
theorem find_spec (uf : UnionFind) (hinv : UFInv uf) (x : Nat)
    (hx : x < uf.parent.length) :
    (uf.find x).1.parent.length = uf.parent.length ∧
    (uf.find x).1.rank = uf.rank ∧
    UFInv (uf.find x).1 ∧
    SameRoots (uf.find x).1.parent uf.parent ∧
    reachesRoot uf.parent x (uf.find x).2 :=
  findAux_spec uf hinv uf.parent.length x hx (ufMeasure_le uf x)

/-- Being in the same class as `x` is reaching `x`'s root. -/
theorem rootEq_iff_reach {p : List Nat} {x rx : Nat} (hrx : reachesRoot p x rx)
    (a : Nat) : rootEq p a x ↔ reachesRoot p a rx := by
  constructor
  · rintro ⟨r, hra, hrxr⟩
    have he : r = rx := reachesRoot_unique hrxr hrx
    exact he ▸ hra
  · intro h
    exact ⟨rx, h, hrx⟩

/-- Effect of linking root `r1` below root `r2` on the class relation. -/
theorem link_rootEq_iff (p : List Nat) (r1 r2 : Nat) (h1 : r1 < p.length)
    (hr1 : isRootP p r1) (hr2 : isRootP p r2) (hne : r1 ≠ r2) (a b : Nat) :
    rootEq (lset p r1 r2) a b ↔
      (rootEq p a b ∨ (reachesRoot p a r1 ∧ reachesRoot p b r2) ∨
        (reachesRoot p a r2 ∧ reachesRoot p b r1)) := by
  have hiff := link_reach_iff p r1 r2 h1 hr1 hr2 hne
  constructor
  · rintro ⟨r, hra, hrb⟩
    rcases (hiff a r).mp hra with ⟨ha1, hrr2⟩ | ⟨ha2, hanr⟩ <;>
      rcases (hiff b r).mp hrb with ⟨hb1, _⟩ | ⟨hb2, hbnr⟩
    · exact Or.inl ⟨r1, ha1, hb1⟩
    · subst hrr2
      exact Or.inr (Or.inl ⟨ha1, hb2⟩)
    · rename_i hrr2
      subst hrr2
      exact Or.inr (Or.inr ⟨ha2, hb1⟩)
    · exact Or.inl ⟨r, ha2, hb2⟩
  · rintro (⟨r, hra, hrb⟩ | ⟨ha, hb⟩ | ⟨ha, hb⟩)
    · by_cases hrr1 : r = r1
      · subst hrr1
        exact ⟨r2, (hiff a r2).mpr (Or.inl ⟨hra, rfl⟩), (hiff b r2).mpr (Or.inl ⟨hrb, rfl⟩)⟩
      · exact ⟨r, (hiff a r).mpr (Or.inr ⟨hra, hrr1⟩), (hiff b r).mpr (Or.inr ⟨hrb, hrr1⟩)⟩
    · exact ⟨r2, (hiff a r2).mpr (Or.inl ⟨ha, rfl⟩),
        (hiff b r2).mpr (Or.inr ⟨hb, hne.symm⟩)⟩
    · exact ⟨r2, (hiff a r2).mpr (Or.inr ⟨ha, hne.symm⟩),
        (hiff b r2).mpr (Or.inl ⟨hb, rfl⟩)⟩

/-- Specification of `union`: array sizes and the invariant are preserved,
and the class relation afterwards is the finest coarsening that identifies
the classes of `x` and `y`. -/
theorem union_spec (uf : UnionFind) (hinv : UFInv uf) (x y : Nat)
    (hx : x < uf.parent.length) (hy : y < uf.parent.length) :
    (uf.union x y).parent.length = uf.parent.length ∧
    UFInv (uf.union x y) ∧
    ∀ a b, rootEq (uf.union x y).parent a b ↔
      (rootEq uf.parent a b ∨ (rootEq uf.parent a x ∧ rootEq uf.parent b y) ∨
        (rootEq uf.parent a y ∧ rootEq uf.parent b x)) := by
  obtain ⟨hlen1, hrank1, hinv1, hsame1, hreachx⟩ := find_spec uf hinv x hx
  have hy1 : y < (uf.find x).1.parent.length := by rw [hlen1]; exact hy
  obtain ⟨hlen2, hrank2, hinv2, hsame2, hreachy1⟩ := find_spec (uf.find x).1 hinv1 y hy1
  have hS : SameRoots ((uf.find x).1.find y).1.parent uf.parent := hsame2.trans hsame1
  have hreachy : reachesRoot uf.parent y ((uf.find x).1.find y).2 :=
    (hsame1 _ _).mp hreachy1
  have hrootx2 : isRootP ((uf.find x).1.find y).1.parent (uf.find x).2 :=
    (reachesRoot_self_iff _ _).mp
      ((hS _ _).mpr ((reachesRoot_self_iff _ _).mpr hreachx.2))
  have hrooty2 : isRootP ((uf.find x).1.find y).1.parent ((uf.find x).1.find y).2 :=
    (reachesRoot_self_iff _ _).mp
      ((hS _ _).mpr ((reachesRoot_self_iff _ _).mpr hreachy.2))
  have hrxlt : (uf.find x).2 < uf.parent.length := reach_lt hinv hx hreachx.1
  have hrylt : ((uf.find x).1.find y).2 < uf.parent.length := reach_lt hinv hy hreachy.1
  have hlen2T : ((uf.find x).1.find y).1.parent.length = uf.parent.length :=
    hlen2.trans hlen1
  have hax : ∀ a, rootEq uf.parent a x ↔ reachesRoot uf.parent a (uf.find x).2 :=
    fun a => rootEq_iff_reach hreachx a
  have hay : ∀ a, rootEq uf.parent a y ↔
      reachesRoot uf.parent a ((uf.find x).1.find y).2 :=
    fun a => rootEq_iff_reach hreachy a
  by_cases heq : (uf.find x).2 = ((uf.find x).1.find y).2
  · have hunion : uf.union x y = ((uf.find x).1.find y).1 := by
      simp only [UnionFind.union, heq, if_pos]
    rw [hunion]
    refine ⟨hlen2T, hinv2, ?_⟩
    intro a b
    rw [hS.rootEq_iff a b]
    constructor
    · exact Or.inl
    · rintro (h | ⟨ha, hb⟩ | ⟨ha, hb⟩)
      · exact h
      · rw [hax a] at ha
        rw [hay b] at hb
        exact ⟨_, heq ▸ ha, hb⟩
      · rw [hay a] at ha
        rw [hax b] at hb
        exact ⟨_, ha, heq ▸ hb⟩
  · have hrxlt2 : (uf.find x).2 < ((uf.find x).1.find y).1.parent.length := by
      rw [hlen2T]; exact hrxlt
    have hrylt2 : ((uf.find x).1.find y).2 < ((uf.find x).1.find y).1.parent.length := by
      rw [hlen2T]; exact hrylt
    by_cases hlt1 : ufget ((uf.find x).1.find y).1.rank (uf.find x).2 <
        ufget ((uf.find x).1.find y).1.rank ((uf.find x).1.find y).2
    · have hunion : uf.union x y =
          ⟨lset ((uf.find x).1.find y).1.parent (uf.find x).2 ((uf.find x).1.find y).2,
            ((uf.find x).1.find y).1.rank⟩ := by
        simp only [UnionFind.union, heq, hlt1, if_neg, if_pos, ite_false, ite_true]
      rw [hunion]
      refine ⟨?_, ?_, ?_⟩
      · simp only [lset_length]
        exact hlen2T
      · refine ⟨?_, ?_, ?_⟩
        · simp only [lset_length]
          exact hinv2.rank_len
        · intro z hz
          simp only [lset_length] at hz ⊢
          by_cases hzx : z = (uf.find x).2
          · subst hzx
            rw [ufget_lset_self _ _ _ hrxlt2]
            exact hrylt2
          · rw [ufget_lset_other _ _ _ _ (fun e2 => hzx e2.symm)]
            exact hinv2.parent_lt _ hz
        · intro z hz
          simp only [lset_length] at hz
          by_cases hzx : z = (uf.find x).2
          · subst hzx
            rw [ufget_lset_self _ _ _ hrxlt2]
            exact Or.inr hlt1
          · rw [ufget_lset_other _ _ _ _ (fun e2 => hzx e2.symm)]
            exact hinv2.rank_ord _ hz
      · intro a b
        rw [link_rootEq_iff _ _ _ hrxlt2 hrootx2 hrooty2 heq a b,
          hS.rootEq_iff a b, hS a (uf.find x).2, hS b ((uf.find x).1.find y).2,
          hS a ((uf.find x).1.find y).2, hS b (uf.find x).2,
          ← hax a, ← hay b, ← hay a, ← hax b]
    · by_cases hlt2 : ufget ((uf.find x).1.find y).1.rank ((uf.find x).1.find y).2 <
          ufget ((uf.find x).1.find y).1.rank (uf.find x).2
      · have hunion : uf.union x y =
            ⟨lset ((uf.find x).1.find y).1.parent ((uf.find x).1.find y).2 (uf.find x).2,
              ((uf.find x).1.find y).1.rank⟩ := by
          simp only [UnionFind.union, heq, hlt1, hlt2, if_neg, if_pos, ite_false, ite_true]
        rw [hunion]
        refine ⟨?_, ?_, ?_⟩
        · simp only [lset_length]
          exact hlen2T
        · refine ⟨?_, ?_, ?_⟩
          · simp only [lset_length]
            exact hinv2.rank_len
          · intro z hz
            simp only [lset_length] at hz ⊢
            by_cases hzy : z = ((uf.find x).1.find y).2
            · subst hzy
              rw [ufget_lset_self _ _ _ hrylt2]
              exact hrxlt2
            · rw [ufget_lset_other _ _ _ _ (fun e2 => hzy e2.symm)]
              exact hinv2.parent_lt _ hz
          · intro z hz
            simp only [lset_length] at hz
            by_cases hzy : z = ((uf.find x).1.find y).2
            · subst hzy
              rw [ufget_lset_self _ _ _ hrylt2]
              exact Or.inr hlt2
            · rw [ufget_lset_other _ _ _ _ (fun e2 => hzy e2.symm)]
              exact hinv2.rank_ord _ hz
        · intro a b
          rw [link_rootEq_iff _ _ _ hrylt2 hrooty2 hrootx2 (Ne.symm heq) a b,
            hS.rootEq_iff a b, hS a (uf.find x).2, hS b ((uf.find x).1.find y).2,
            hS a ((uf.find x).1.find y).2, hS b (uf.find x).2,
            ← hax a, ← hay b, ← hay a, ← hax b]
          tauto
      · have hunion : uf.union x y =
            ⟨lset ((uf.find x).1.find y).1.parent ((uf.find x).1.find y).2 (uf.find x).2,
              lset ((uf.find x).1.find y).1.rank (uf.find x).2
                (ufget ((uf.find x).1.find y).1.rank (uf.find x).2 + 1)⟩ := by
          simp only [UnionFind.union, heq, hlt1, hlt2, if_neg, ite_false]
        have hreq : ufget ((uf.find x).1.find y).1.rank (uf.find x).2 =
            ufget ((uf.find x).1.find y).1.rank ((uf.find x).1.find y).2 := by omega
        have hrxlt2R : (uf.find x).2 < ((uf.find x).1.find y).1.rank.length := by
          rw [hinv2.rank_len]
          exact hrxlt2
        rw [hunion]
        refine ⟨?_, ?_, ?_⟩
        · simp only [lset_length]
          exact hlen2T
        · refine ⟨?_, ?_, ?_⟩
          · simp only [lset_length]
            exact hinv2.rank_len
          · intro z hz
            simp only [lset_length] at hz ⊢
            by_cases hzy : z = ((uf.find x).1.find y).2
            · subst hzy
              rw [ufget_lset_self _ _ _ hrylt2]
              exact hrxlt2
            · rw [ufget_lset_other _ _ _ _ (fun e2 => hzy e2.symm)]
              exact hinv2.parent_lt _ hz
          · intro z hz
            simp only [lset_length] at hz
            by_cases hzy : z = ((uf.find x).1.find y).2
            · subst hzy
              rw [ufget_lset_self _ _ _ hrylt2]
              right
              rw [ufget_lset_other _ _ _ _ heq, ufget_lset_self _ _ _ hrxlt2R, ← hreq]
              omega
            · rw [ufget_lset_other _ _ _ _ (fun e2 => hzy e2.symm)]
              by_cases hzx : z = (uf.find x).2
              · subst hzx
                left
                exact hrootx2
              · rcases hinv2.rank_ord _ hz with hl | hr
                · exact Or.inl hl
                · right
                  rw [ufget_lset_other _ _ _ _ (fun e2 => hzx e2.symm)]
                  by_cases hpzx : ufget ((uf.find x).1.find y).1.parent z = (uf.find x).2
                  · rw [hpzx, ufget_lset_self _ _ _ hrxlt2R]
                    rw [hpzx] at hr
                    omega
                  · rw [ufget_lset_other _ _ _ _ (fun e2 => hpzx e2.symm)]
                    exact hr
        · intro a b
          rw [link_rootEq_iff _ _ _ hrylt2 hrooty2 hrootx2 (Ne.symm heq) a b,
            hS.rootEq_iff a b, hS a (uf.find x).2, hS b ((uf.find x).1.find y).2,
            hS a ((uf.find x).1.find y).2, hS b (uf.find x).2,
            ← hax a, ← hay b, ← hay a, ← hax b]
          tauto

/-! ### 4-connectivity on the pixel grid -/

/-- Row-major 4-adjacency: left/right neighbours must not cross a row
boundary, up/down neighbours differ by `width`. -/
def adjacent (width i j : Nat) : Prop :=
  (j = i + 1 ∧ (i + 1) % width ≠ 0) ∨ (i = j + 1 ∧ (j + 1) % width ≠ 0) ∨
    j = i + width ∨ i = j + width

/-- One connectivity step among the first `bound` pixels: both endpoints in
range, both foreground, and 4-adjacent. -/
def connects (bin : Nat → Bool) (width bound i j : Nat) : Prop :=
  i < bound ∧ j < bound ∧ bin i = true ∧ bin j = true ∧ adjacent width i j

/-- Connectivity (reflexive-transitive closure of `connects`). -/
def connectedIn (bin : Nat → Bool) (width bound : Nat) (i j : Nat) : Prop :=
  Relation.ReflTransGen (connects bin width bound) i j

theorem adjacent_symm {width i j : Nat} (h : adjacent width i j) : adjacent width j i := by
  unfold adjacent at *
  tauto

theorem connects_symm {bin width bound} {i j : Nat}
    (h : connects bin width bound i j) : connects bin width bound j i :=
  ⟨h.2.1, h.1, h.2.2.2.1, h.2.2.1, adjacent_symm h.2.2.2.2⟩

theorem connectedIn_symm {bin width bound} {i j : Nat}
    (h : connectedIn bin width bound i j) : connectedIn bin width bound j i := by
  induction h with
  | refl => exact .refl
  | tail hab hbc ih => exact Relation.ReflTransGen.head (connects_symm hbc) ih

theorem connects_mono {bin width bound} {i j : Nat}
    (h : connects bin width bound i j) : connects bin width (bound + 1) i j :=
  ⟨Nat.lt_succ_of_lt h.1, Nat.lt_succ_of_lt h.2.1, h.2.2.1, h.2.2.2.1, h.2.2.2.2⟩

theorem connectedIn_mono {bin width bound} {i j : Nat}
    (h : connectedIn bin width bound i j) : connectedIn bin width (bound + 1) i j := by
  induction h with
  | refl => exact .refl
  | tail hab hbc ih => exact ih.tail (connects_mono hbc)

/-- No pixel is 4-adjacent to itself on a positive-width grid. -/
theorem adjacent_irrefl {width i : Nat} (hw : 0 < width) (h : adjacent width i i) :
    False := by
  unfold adjacent at h
  omega

/-- The already-scanned neighbours of pixel `k`: in earlier scan positions,
foreground, adjacent. -/
def nbr (bin : Nat → Bool) (width k a : Nat) : Prop :=
  a < k ∧ bin a = true ∧ adjacent width k a

/-- On a positive-width grid the scanned neighbours of `k` are exactly its
left neighbour (when `k` does not start a row) and its top neighbour (when
there is a previous row), both foreground. -/
theorem nbr_iff (bin : Nat → Bool) (width k a : Nat) (hw : 0 < width) :
    nbr bin width k a ↔
      ((k % width ≠ 0 ∧ a = k - 1 ∧ bin (k - 1) = true) ∨
        (width ≤ k ∧ a = k - width ∧ bin (k - width) = true)) := by
  unfold nbr adjacent
  constructor
  · rintro ⟨hak, hba, hadj⟩
    rcases hadj with ⟨h1, _⟩ | ⟨h1, h2⟩ | h1 | h1
    · omega
    · subst h1
      exact Or.inl ⟨by omega, by omega, by simpa using hba⟩
    · omega
    · exact Or.inr ⟨by omega, by omega, by rw [show k - width = a by omega]; exact hba⟩
  · rintro (⟨h1, h2, h3⟩ | ⟨h1, h2, h3⟩)
    · have hk0 : 0 < k := Nat.pos_of_ne_zero (fun e => h1 (by rw [e, Nat.zero_mod]))
      subst h2
      exact ⟨by omega, h3, Or.inr (Or.inl ⟨by omega, by
        rw [show k - 1 + 1 = k by omega]; exact h1⟩)⟩
    · subst h2
      exact ⟨by omega, h3, Or.inr (Or.inr (Or.inr (by omega)))⟩

/-- Path analysis when the scan admits pixel `k`: a path in the extended
graph either avoids `k` or crosses it through scanned neighbours. -/
theorem extend_path (bin : Nat → Bool) (width k : Nat) (hw : 0 < width)
    {j : Nat} (hj : j < k) :
    ∀ i, connectedIn bin width (k + 1) i j →
      (i ≠ k → (connectedIn bin width k i j ∨
        ((∃ a, nbr bin width k a ∧ connectedIn bin width k i a) ∧
          (∃ b, nbr bin width k b ∧ connectedIn bin width k b j)))) ∧
      (i = k → ∃ b, nbr bin width k b ∧ connectedIn bin width k b j) := by
  intro i h
  induction h using Relation.ReflTransGen.head_induction_on with
  | refl =>
    exact ⟨fun _ => Or.inl .refl, fun he => absurd (he ▸ hj) (lt_irrefl k)⟩
  | head hstep htail ih =>
    rename_i x c
    constructor
    · intro hxk
      by_cases hck : c = k
      · have hxnbr : nbr bin width k x := by
          refine ⟨?_, hstep.2.2.1, adjacent_symm (hck ▸ hstep.2.2.2.2)⟩
          have := hstep.1
          omega
        obtain ⟨b, hbnbr, hbj⟩ := ih.2 hck
        exact Or.inr ⟨⟨x, hxnbr, .refl⟩, ⟨b, hbnbr, hbj⟩⟩
      · have hstep2 : connects bin width k x c := by
          refine ⟨?_, ?_, hstep.2.2.1, hstep.2.2.2.1, hstep.2.2.2.2⟩
          · have := hstep.1
            omega
          · have := hstep.2.1
            omega
        rcases ih.1 hck with h1 | ⟨⟨a, hna, hca⟩, hbpart⟩
        · exact Or.inl (Relation.ReflTransGen.head hstep2 h1)
        · exact Or.inr ⟨⟨a, hna, Relation.ReflTransGen.head hstep2 hca⟩, hbpart⟩
    · intro hxk
      rw [hxk] at hstep
      have hck : c ≠ k := fun e => adjacent_irrefl hw (e ▸ hstep.2.2.2.2)
      have hcnbr : nbr bin width k c := by
        refine ⟨?_, hstep.2.2.2.1, hstep.2.2.2.2⟩
        have := hstep.2.1
        omega
      rcases ih.1 hck with h1 | ⟨_, hbpart⟩
      · exact ⟨c, hcnbr, h1⟩
      · exact hbpart

/-- Admitting a background pixel changes no connectivity. -/
theorem connected_extend_bg (bin : Nat → Bool) (width k : Nat)
    (hbk : bin k = false) {i j : Nat} :
    connectedIn bin width (k + 1) i j ↔ connectedIn bin width k i j := by
  constructor
  · intro h
    induction h with
    | refl => exact .refl
    | tail hab hbc ih =>
      rename_i b c
      have hstep2 : connects bin width k b c := by
        refine ⟨?_, ?_, hbc.2.2.1, hbc.2.2.2.1, hbc.2.2.2.2⟩
        · rcases Nat.lt_succ_iff_lt_or_eq.mp hbc.1 with h1 | h1
          · exact h1
          · rw [h1] at hbc
            rw [hbc.2.2.1] at hbk
            cases hbk
        · rcases Nat.lt_succ_iff_lt_or_eq.mp hbc.2.1 with h1 | h1
          · exact h1
          · rw [h1] at hbc
            rw [hbc.2.2.2.1] at hbk
            cases hbk
      exact ih.tail hstep2
  · exact connectedIn_mono

/-- Admitting foreground pixel `k`: connectivity between older pixels grows
exactly by paths through `k`'s scanned neighbours. -/
theorem connected_extend_old (bin : Nat → Bool) (width k : Nat) (hw : 0 < width)
    (hbk : bin k = true) {i j : Nat} (hi : i < k) (hj : j < k) :
    connectedIn bin width (k + 1) i j ↔
      (connectedIn bin width k i j ∨
        ((∃ a, nbr bin width k a ∧ connectedIn bin width k i a) ∧
          (∃ b, nbr bin width k b ∧ connectedIn bin width k b j))) := by
  constructor
  · intro h
    exact (extend_path bin width k hw hj i h).1 (by omega)
  · rintro (h | ⟨⟨a, hna, hia⟩, ⟨b, hnb, hbj⟩⟩)
    · exact connectedIn_mono h
    · obtain ⟨ha1, ha2, ha3⟩ := hna
      obtain ⟨hb1, hb2, hb3⟩ := hnb
      have hak : connects bin width (k + 1) a k :=
        ⟨by omega, by omega, ha2, hbk, adjacent_symm ha3⟩
      have hkb : connects bin width (k + 1) k b :=
        ⟨by omega, by omega, hbk, hb2, hb3⟩
      exact ((connectedIn_mono hia).tail hak).trans
        (Relation.ReflTransGen.head hkb (connectedIn_mono hbj))

/-- Admitting foreground pixel `k`: the older pixels connected to `k` are
those connected to one of its scanned neighbours. -/
theorem connected_extend_new (bin : Nat → Bool) (width k : Nat) (hw : 0 < width)
    (hbk : bin k = true) {i : Nat} (hi : i < k) :
    connectedIn bin width (k + 1) i k ↔
      ∃ a, nbr bin width k a ∧ connectedIn bin width k i a := by
  constructor
  · intro h
    obtain ⟨b, hnb, hbi⟩ := (extend_path bin width k hw hi k (connectedIn_symm h)).2 rfl
    exact ⟨b, hnb, connectedIn_symm hbi⟩
  · rintro ⟨a, hna, hia⟩
    obtain ⟨ha1, ha2, ha3⟩ := hna
    have hak : connects bin width (k + 1) a k :=
      ⟨by omega, by omega, ha2, hbk, adjacent_symm ha3⟩
    exact (connectedIn_mono hia).tail hak

/-! ### The first-pass scan invariant -/

theorem rootEq_symm {p : List Nat} {a b : Nat} (h : rootEq p a b) : rootEq p b a := by
  obtain ⟨r, h1, h2⟩ := h
  exact ⟨r, h2, h1⟩

theorem rootEq_trans {p : List Nat} {a b c : Nat} (h1 : rootEq p a b)
    (h2 : rootEq p b c) : rootEq p a c := by
  obtain ⟨r, ha, hb⟩ := h1
  obtain ⟨s, hb2, hc⟩ := h2
  have : r = s := reachesRoot_unique hb hb2
  exact ⟨r, ha, this ▸ hc⟩

/-- Every in-range node has a root (a consequence of the `find`
specification). -/
theorem exists_root (uf : UnionFind) (hinv : UFInv uf) (z : Nat)
    (hz : z < uf.parent.length) : ∃ r, reachesRoot uf.parent z r :=
  ⟨(uf.find z).2, (find_spec uf hinv z hz).2.2.2.2⟩

theorem rootEq_refl (uf : UnionFind) (hinv : UFInv uf) (z : Nat)
    (hz : z < uf.parent.length) : rootEq uf.parent z z := by
  obtain ⟨r, hr⟩ := exists_root uf hinv z hz
  exact ⟨r, hr, hr⟩

theorem ufget_range : ∀ (n x : Nat), x < n → ufget (List.range n) x = x := by
  intro n x hx
  unfold ufget
  rw [List.getD_eq_getElem _ _ (by simpa using hx)]
  simp

theorem ufget_replicate (n v i : Nat) : ufget (List.replicate n v) i =
    if i < n then v else 0 := by
  unfold ufget
  by_cases h : i < n
  · rw [List.getD_eq_getElem _ _ (by simpa using h)]
    simp [h]
  · rw [List.getD_eq_default]
    · simp [h]
    · simpa using Nat.le_of_not_lt h

/-- The freshly initialised union-find structure satisfies the invariant. -/
theorem init_UFInv (n : Nat) : UFInv (UnionFind.init n) := by
  refine ⟨by simp [UnionFind.init], ?_, ?_⟩
  · intro x hx
    simp only [UnionFind.init] at *
    rw [ufget_range _ _ (by simpa using hx)]
    simpa using hx
  · intro x hx
    simp only [UnionFind.init] at *
    exact Or.inl (ufget_range _ _ (by simpa using hx))

/-- In the initial structure every node is a root. -/
theorem init_rootEq {n a b : Nat} (h : rootEq (UnionFind.init n).parent a b)
    (ha : a < n) (hb : b < n) : a = b := by
  obtain ⟨r, ⟨hpa, _⟩, ⟨hpb, _⟩⟩ := h
  have hra : r = a := reach_of_root (ufget_range n a ha) hpa
  have hrb : r = b := reach_of_root (ufget_range n b hb) hpb
  exact hra ▸ hrb

/-- The invariant carried through the first labelling pass, after the pixels
`0, …, k-1` have been processed. -/
structure ScanInv (bin : Nat → Bool) (width total k : Nat) (st : LabelState) : Prop where
  labels_len : st.labels.length = total
  uf_len : st.uf.parent.length = total + 1
  uf_inv : UFInv st.uf
  next_pos : 1 ≤ st.nextLabel
  next_le : st.nextLabel ≤ k + 1
  unprocessed : ∀ i, k ≤ i → ufget st.labels i = 0
  bg_zero : ∀ i, i < k → bin i = false → ufget st.labels i = 0
  fg_pos : ∀ i, i < k → bin i = true →
    0 < ufget st.labels i ∧ ufget st.labels i < st.nextLabel
  fresh : ∀ z, st.nextLabel ≤ z → z < total + 1 →
    ∀ y, y < total + 1 → rootEq st.uf.parent y z → y = z
  classes : ∀ i j, i < k → j < k → bin i = true → bin j = true →
    (rootEq st.uf.parent (ufget st.labels i) (ufget st.labels j) ↔
      connectedIn bin width k i j)

/-- The invariant holds before any pixel is processed. -/
theorem scanInv_init (bin : Nat → Bool) (width total : Nat) :
    ScanInv bin width total 0
      ⟨List.replicate total 0, UnionFind.init (total + 1), 1⟩ := by
  refine ⟨by simp, by simp [UnionFind.init], init_UFInv (total + 1), le_refl 1, le_refl 1,
    ?_, ?_, ?_, ?_, ?_⟩
  · intro i _
    rw [ufget_replicate]
    by_cases h : i < total <;> simp [h]
  · intro i hi _
    omega
  · intro i hi _
    omega
  · intro z _ hz y hy h
    exact init_rootEq h hy hz
  · intro i j hi _ _ _
    omega

/-- Shared bookkeeping behind the three foreground branches: label array
facts after writing label `v` at pixel `k`. -/
theorem lset_label_facts (st : LabelState) (total k v : Nat)
    (hlen : st.labels.length = total) (hk : k < total) :
    (lset st.labels k v).length = total ∧ ufget (lset st.labels k v) k = v ∧
      ∀ i, i ≠ k → ufget (lset st.labels k v) i = ufget st.labels i := by
  refine ⟨by rw [lset_length]; exact hlen, ?_, ?_⟩
  · exact ufget_lset_self _ _ _ (by rw [hlen]; exact hk)
  · intro i hi
    exact ufget_lset_other _ _ _ _ (fun e => hi e.symm)

/-- Branch 1 of the scan step: a foreground pixel with no scanned foreground
neighbour gets the fresh label. -/
theorem scan_step_fresh (bin : Nat → Bool) (width total k : Nat) (st : LabelState)
    (hw : 0 < width) (hk : k < total) (hinv : ScanInv bin width total k st)
    (hbk : bin k = true) (hempty : ∀ a, ¬ nbr bin width k a) :
    ScanInv bin width total (k + 1)
      ⟨lset st.labels k st.nextLabel, st.uf, st.nextLabel + 1⟩ := by
  obtain ⟨hlen, hself, hother⟩ :=
    lset_label_facts st total k st.nextLabel hinv.labels_len hk
  have hnlt : st.nextLabel < total + 1 := by
    have := hinv.next_le
    omega
  refine ⟨hlen, hinv.uf_len, hinv.uf_inv, by show 1 ≤ st.nextLabel + 1; omega,
    by show st.nextLabel + 1 ≤ k + 1 + 1; have := hinv.next_le; omega,
    ?_, ?_, ?_, ?_, ?_⟩
  · intro i hi
    rw [hother i (by omega)]
    exact hinv.unprocessed i (by omega)
  · intro i hi hb
    have hik : i ≠ k := fun e => by rw [e, hbk] at hb; cases hb
    rw [hother i hik]
    exact hinv.bg_zero i (by omega) hb
  · intro i hi hb
    show 0 < ufget (lset st.labels k st.nextLabel) i ∧
      ufget (lset st.labels k st.nextLabel) i < st.nextLabel + 1
    by_cases hik : i = k
    · rw [hik, hself]
      have := hinv.next_pos
      omega
    · rw [hother i hik]
      have := hinv.fg_pos i (by omega) hb
      omega
  · intro z hz hz2 y hy h
    have hz3 : st.nextLabel + 1 ≤ z := hz
    exact hinv.fresh z (by omega) hz2 y hy h
  · intro i j hi hj hbi hbj
    by_cases hik : i = k <;> by_cases hjk : j = k
    · rw [hik, hjk]
      show rootEq st.uf.parent (ufget (lset st.labels k st.nextLabel) k)
          (ufget (lset st.labels k st.nextLabel) k) ↔ _
      rw [hself]
      constructor
      · intro _
        exact .refl
      · intro _
        exact rootEq_refl st.uf hinv.uf_inv st.nextLabel (by rw [hinv.uf_len]; exact hnlt)
    · rw [hik]
      show rootEq st.uf.parent (ufget (lset st.labels k st.nextLabel) k)
          (ufget (lset st.labels k st.nextLabel) j) ↔ _
      rw [hself, hother j hjk]
      have hj2 : j < k := by omega
      constructor
      · intro h
        have heq := hinv.fresh st.nextLabel (le_refl _) hnlt (ufget st.labels j)
          (by have := hinv.fg_pos j hj2 hbj; have := hinv.next_le; omega)
          (rootEq_symm h)
        have hpos := hinv.fg_pos j hj2 hbj
        exact absurd heq (by omega)
      · intro h
        obtain ⟨a, hna, _⟩ := (connected_extend_new bin width k hw hbk hj2).mp
          (connectedIn_symm h)
        exact absurd hna (hempty a)
    · rw [hjk]
      show rootEq st.uf.parent (ufget (lset st.labels k st.nextLabel) i)
          (ufget (lset st.labels k st.nextLabel) k) ↔ _
      rw [hself, hother i hik]
      have hi2 : i < k := by omega
      constructor
      · intro h
        have heq := hinv.fresh st.nextLabel (le_refl _) hnlt (ufget st.labels i)
          (by have := hinv.fg_pos i hi2 hbi; have := hinv.next_le; omega) h
        have hpos := hinv.fg_pos i hi2 hbi
        exact absurd heq (by omega)
      · intro h
        obtain ⟨a, hna, _⟩ := (connected_extend_new bin width k hw hbk hi2).mp h
        exact absurd hna (hempty a)
    · rw [hother i hik, hother j hjk]
      have hi2 : i < k := by omega
      have hj2 : j < k := by omega
      rw [hinv.classes i j hi2 hj2 hbi hbj,
        connected_extend_old bin width k hw hbk hi2 hj2]
      constructor
      · exact Or.inl
      · rintro (h | ⟨⟨a, hna, _⟩, _⟩)
        · exact h
        · exact absurd hna (hempty a)

/-- Branch 2 of the scan step: a foreground pixel with exactly one scanned
foreground neighbour inherits its label (`leftLabel || topLabel`). -/
theorem scan_step_one (bin : Nat → Bool) (width total k : Nat) (st : LabelState)
    (hw : 0 < width) (hk : k < total) (hinv : ScanInv bin width total k st)
    (hbk : bin k = true) (nb : Nat) (hnb : nbr bin width k nb)
    (hone : ∀ a, nbr bin width k a → a = nb) :
    ScanInv bin width total (k + 1)
      ⟨lset st.labels k (ufget st.labels nb), st.uf, st.nextLabel⟩ := by
  obtain ⟨hlen, hself, hother⟩ :=
    lset_label_facts st total k (ufget st.labels nb) hinv.labels_len hk
  have hnbk : nb < k := hnb.1
  have hnbb : bin nb = true := hnb.2.1
  have hvpos := hinv.fg_pos nb hnbk hnbb
  have hvlt : ufget st.labels nb < total + 1 := by
    have := hinv.next_le
    omega
  have hnewiff : ∀ i, i < k → bin i = true →
      (connectedIn bin width (k + 1) i k ↔ connectedIn bin width k i nb) := by
    intro i hi hbi
    rw [connected_extend_new bin width k hw hbk hi]
    constructor
    · rintro ⟨a, hna, hia⟩
      rw [hone a hna] at hia
      exact hia
    · intro h
      exact ⟨nb, hnb, h⟩
  refine ⟨hlen, hinv.uf_len, hinv.uf_inv, hinv.next_pos,
    by show st.nextLabel ≤ k + 1 + 1; have := hinv.next_le; omega, ?_, ?_, ?_,
    hinv.fresh, ?_⟩
  · intro i hi
    rw [hother i (by omega)]
    exact hinv.unprocessed i (by omega)
  · intro i hi hb
    have hik : i ≠ k := fun e => by rw [e, hbk] at hb; cases hb
    rw [hother i hik]
    exact hinv.bg_zero i (by omega) hb
  · intro i hi hb
    show 0 < ufget (lset st.labels k (ufget st.labels nb)) i ∧
      ufget (lset st.labels k (ufget st.labels nb)) i < st.nextLabel
    by_cases hik : i = k
    · rw [hik, hself]
      omega
    · rw [hother i hik]
      exact hinv.fg_pos i (by omega) hb
  · intro i j hi hj hbi hbj
    by_cases hik : i = k <;> by_cases hjk : j = k
    · rw [hik, hjk]
      show rootEq st.uf.parent (ufget (lset st.labels k (ufget st.labels nb)) k)
          (ufget (lset st.labels k (ufget st.labels nb)) k) ↔ _
      rw [hself]
      constructor
      · intro _
        exact .refl
      · intro _
        exact rootEq_refl st.uf hinv.uf_inv _ (by rw [hinv.uf_len]; exact hvlt)
    · rw [hik]
      show rootEq st.uf.parent (ufget (lset st.labels k (ufget st.labels nb)) k)
          (ufget (lset st.labels k (ufget st.labels nb)) j) ↔ _
      rw [hself, hother j hjk]
      have hj2 : j < k := by omega
      rw [hinv.classes nb j hnbk hj2 hnbb hbj]
      constructor
      · intro h
        exact connectedIn_symm ((hnewiff j hj2 hbj).mpr (connectedIn_symm h))
      · intro h
        exact connectedIn_symm ((hnewiff j hj2 hbj).mp (connectedIn_symm h))
    · rw [hjk]
      show rootEq st.uf.parent (ufget (lset st.labels k (ufget st.labels nb)) i)
          (ufget (lset st.labels k (ufget st.labels nb)) k) ↔ _
      rw [hself, hother i hik]
      have hi2 : i < k := by omega
      rw [hinv.classes i nb hi2 hnbk hbi hnbb]
      exact (hnewiff i hi2 hbi).symm
    · rw [hother i hik, hother j hjk]
      have hi2 : i < k := by omega
      have hj2 : j < k := by omega
      rw [hinv.classes i j hi2 hj2 hbi hbj,
        connected_extend_old bin width k hw hbk hi2 hj2]
      constructor
      · exact Or.inl
      · rintro (h | ⟨⟨a, hna, hia⟩, ⟨b, hnbb2, hbj2⟩⟩)
        · exact h
        · rw [hone a hna] at hia
          rw [hone b hnbb2] at hbj2
          exact hia.trans hbj2

/-- Branch 3 of the scan step: a foreground pixel with two scanned
foreground neighbours takes the smaller label and unions the two. -/
theorem scan_step_two (bin : Nat → Bool) (width total k : Nat) (st : LabelState)
    (hw : 0 < width) (hk : k < total) (hinv : ScanInv bin width total k st)
    (hbk : bin k = true)
    (hnbL : nbr bin width k (k - 1)) (hnbT : nbr bin width k (k - width))
    (hboth : ∀ a, nbr bin width k a → a = k - 1 ∨ a = k - width) :
    ScanInv bin width total (k + 1)
      ⟨lset st.labels k (min (ufget st.labels (k - 1)) (ufget st.labels (k - width))),
        st.uf.union (ufget st.labels (k - 1)) (ufget st.labels (k - width)),
        st.nextLabel⟩ := by
  set ll := ufget st.labels (k - 1) with hlldef
  set tl := ufget st.labels (k - width) with htldef
  obtain ⟨hlen, hself, hother⟩ :=
    lset_label_facts st total k (min ll tl) hinv.labels_len hk
  have hLk : k - 1 < k := hnbL.1
  have hTk : k - width < k := hnbT.1
  have hbL : bin (k - 1) = true := hnbL.2.1
  have hbT : bin (k - width) = true := hnbT.2.1
  have hllp := hinv.fg_pos (k - 1) hLk hbL
  have htlp := hinv.fg_pos (k - width) hTk hbT
  have hnle := hinv.next_le
  have hlllt : ll < st.uf.parent.length := by rw [hinv.uf_len]; omega
  have htllt : tl < st.uf.parent.length := by rw [hinv.uf_len]; omega
  obtain ⟨hUlen, hUinv, hUiff⟩ := union_spec st.uf hinv.uf_inv ll tl hlllt htllt
  have hllr : rootEq st.uf.parent ll ll := rootEq_refl st.uf hinv.uf_inv ll hlllt
  have htlr : rootEq st.uf.parent tl tl := rootEq_refl st.uf hinv.uf_inv tl htllt
  have hll_tl : rootEq (st.uf.union ll tl).parent ll tl :=
    (hUiff ll tl).mpr (Or.inr (Or.inl ⟨hllr, htlr⟩))
  have hminEq : ∀ w, rootEq (st.uf.union ll tl).parent (min ll tl) w ↔
      rootEq (st.uf.union ll tl).parent ll w := by
    rcases le_total ll tl with h | h
    · rw [Nat.min_eq_left h]
      exact fun w => Iff.rfl
    · rw [Nat.min_eq_right h]
      intro w
      exact ⟨fun hw => rootEq_trans hll_tl hw,
        fun hw => rootEq_trans (rootEq_symm hll_tl) hw⟩
  have hLjoin : ∀ w, rootEq (st.uf.union ll tl).parent ll w ↔
      (rootEq st.uf.parent w ll ∨ rootEq st.uf.parent w tl) := by
    intro w
    constructor
    · intro h
      rcases (hUiff ll w).mp h with h1 | ⟨_, h2⟩ | ⟨_, h3⟩
      · exact Or.inl (rootEq_symm h1)
      · exact Or.inr h2
      · exact Or.inl h3
    · rintro (h1 | h2)
      · exact (hUiff ll w).mpr (Or.inl (rootEq_symm h1))
      · exact (hUiff ll w).mpr (Or.inr (Or.inl ⟨hllr, h2⟩))
  have hnew : ∀ i, i < k → bin i = true →
      (connectedIn bin width (k + 1) i k ↔
        (connectedIn bin width k i (k - 1) ∨ connectedIn bin width k i (k - width))) := by
    intro i hi hbi
    rw [connected_extend_new bin width k hw hbk hi]
    constructor
    · rintro ⟨a, hna, hia⟩
      rcases hboth a hna with he | he
      · rw [he] at hia
        exact Or.inl hia
      · rw [he] at hia
        exact Or.inr hia
    · rintro (h | h)
      · exact ⟨k - 1, hnbL, h⟩
      · exact ⟨k - width, hnbT, h⟩
  have hulen2 : (st.uf.union ll tl).parent.length = total + 1 := by
    rw [hUlen, hinv.uf_len]
  refine ⟨hlen, hulen2, hUinv, hinv.next_pos,
    (by show st.nextLabel ≤ k + 1 + 1; omega), ?_, ?_, ?_, ?_, ?_⟩
  · intro i hi
    rw [hother i (by omega)]
    exact hinv.unprocessed i (by omega)
  · intro i hi hb
    have hik : i ≠ k := fun e => by rw [e, hbk] at hb; cases hb
    rw [hother i hik]
    exact hinv.bg_zero i (by omega) hb
  · intro i hi hb
    show 0 < ufget (lset st.labels k (min ll tl)) i ∧
      ufget (lset st.labels k (min ll tl)) i < st.nextLabel
    by_cases hik : i = k
    · rw [hik, hself]
      omega
    · rw [hother i hik]
      exact hinv.fg_pos i (by omega) hb
  · intro z hz hz2 y hy h
    have hz3 : st.nextLabel ≤ z := hz
    rcases (hUiff y z).mp h with h1 | ⟨_, h2⟩ | ⟨_, h3⟩
    · exact hinv.fresh z hz3 hz2 y hy h1
    · have := hinv.fresh z hz3 hz2 tl (by rw [hinv.uf_len] at htllt; exact htllt)
        (rootEq_symm h2)
      omega
    · have := hinv.fresh z hz3 hz2 ll (by rw [hinv.uf_len] at hlllt; exact hlllt)
        (rootEq_symm h3)
      omega
  · intro i j hi hj hbi hbj
    by_cases hik : i = k <;> by_cases hjk : j = k
    · rw [hik, hjk]
      show rootEq (st.uf.union ll tl).parent (ufget (lset st.labels k (min ll tl)) k)
          (ufget (lset st.labels k (min ll tl)) k) ↔ _
      rw [hself]
      constructor
      · intro _
        exact .refl
      · intro _
        refine rootEq_refl (st.uf.union ll tl) hUinv _ ?_
        rw [hUlen]
        rcases le_total ll tl with h | h
        · rw [Nat.min_eq_left h]
          exact hlllt
        · rw [Nat.min_eq_right h]
          exact htllt
    · rw [hik]
      show rootEq (st.uf.union ll tl).parent (ufget (lset st.labels k (min ll tl)) k)
          (ufget (lset st.labels k (min ll tl)) j) ↔ _
      rw [hself, hother j hjk]
      have hj2 : j < k := by omega
      rw [hminEq, hLjoin,
        hinv.classes j (k - 1) hj2 hLk hbj hbL,
        hinv.classes j (k - width) hj2 hTk hbj hbT]
      constructor
      · intro h
        exact connectedIn_symm ((hnew j hj2 hbj).mpr h)
      · intro h
        exact (hnew j hj2 hbj).mp (connectedIn_symm h)
    · rw [hjk]
      show rootEq (st.uf.union ll tl).parent (ufget (lset st.labels k (min ll tl)) i)
          (ufget (lset st.labels k (min ll tl)) k) ↔ _
      rw [hself, hother i hik]
      have hi2 : i < k := by omega
      constructor
      · intro h
        have h2 := (hLjoin _).mp ((hminEq _).mp (rootEq_symm h))
        rw [hinv.classes i (k - 1) hi2 hLk hbi hbL,
          hinv.classes i (k - width) hi2 hTk hbi hbT] at h2
        exact (hnew i hi2 hbi).mpr h2
      · intro h
        have h2 := (hnew i hi2 hbi).mp h
        rw [← hinv.classes i (k - 1) hi2 hLk hbi hbL,
          ← hinv.classes i (k - width) hi2 hTk hbi hbT] at h2
        exact rootEq_symm ((hminEq _).mpr ((hLjoin _).mpr h2))
    · rw [hother i hik, hother j hjk]
      have hi2 : i < k := by omega
      have hj2 : j < k := by omega
      rw [connected_extend_old bin width k hw hbk hi2 hj2]
      constructor
      · intro h
        rcases (hUiff _ _).mp h with h1 | ⟨h2, h3⟩ | ⟨h2, h3⟩
        · exact Or.inl ((hinv.classes i j hi2 hj2 hbi hbj).mp h1)
        · rw [hinv.classes i (k - 1) hi2 hLk hbi hbL] at h2
          rw [hinv.classes j (k - width) hj2 hTk hbj hbT] at h3
          exact Or.inr ⟨⟨k - 1, hnbL, h2⟩, ⟨k - width, hnbT, connectedIn_symm h3⟩⟩
        · rw [hinv.classes i (k - width) hi2 hTk hbi hbT] at h2
          rw [hinv.classes j (k - 1) hj2 hLk hbj hbL] at h3
          exact Or.inr ⟨⟨k - width, hnbT, h2⟩, ⟨k - 1, hnbL, connectedIn_symm h3⟩⟩
      · rintro (h | ⟨⟨a, hna, hia⟩, ⟨b, hnb2, hbj2⟩⟩)
        · exact (hUiff _ _).mpr (Or.inl ((hinv.classes i j hi2 hj2 hbi hbj).mpr h))
        · rcases hboth a hna with hea | hea <;> rcases hboth b hnb2 with heb | heb
          · rw [hea] at hia
            rw [heb] at hbj2
            exact (hUiff _ _).mpr (Or.inl
              ((hinv.classes i j hi2 hj2 hbi hbj).mpr (hia.trans hbj2)))
          · rw [hea] at hia
            rw [heb] at hbj2
            refine (hUiff _ _).mpr (Or.inr (Or.inl ⟨?_, ?_⟩))
            · exact (hinv.classes i (k - 1) hi2 hLk hbi hbL).mpr hia
            · exact (hinv.classes j (k - width) hj2 hTk hbj hbT).mpr
                (connectedIn_symm hbj2)
          · rw [hea] at hia
            rw [heb] at hbj2
            refine (hUiff _ _).mpr (Or.inr (Or.inr ⟨?_, ?_⟩))
            · exact (hinv.classes i (k - width) hi2 hTk hbi hbT).mpr hia
            · exact (hinv.classes j (k - 1) hj2 hLk hbj hbL).mpr
                (connectedIn_symm hbj2)
          · rw [hea] at hia
            rw [heb] at hbj2
            exact (hUiff _ _).mpr (Or.inl
              ((hinv.classes i j hi2 hj2 hbi hbj).mpr (hia.trans hbj2)))

/-- One step of the first pass preserves the scan invariant. -/
theorem scan_step (bin : Nat → Bool) (width total k : Nat) (st : LabelState)
    (hw : 0 < width) (hk : k < total) (hinv : ScanInv bin width total k st) :
    ScanInv bin width total (k + 1) (labelStep bin width st k) := by
  by_cases hbk : bin k = true
  · by_cases hcL : k % width ≠ 0 ∧ bin (k - 1) = true <;>
      by_cases hcT : width ≤ k ∧ bin (k - width) = true
    · -- two scanned neighbours: union branch
      have hk0 : k ≠ 0 := fun e => hcL.1 (by rw [e, Nat.zero_mod])
      have hLpos := hinv.fg_pos (k - 1) (by omega) hcL.2
      have hTpos := hinv.fg_pos (k - width) (by omega) hcT.2
      have hstep : labelStep bin width st k =
          ⟨lset st.labels k (min (ufget st.labels (k - 1)) (ufget st.labels (k - width))),
            st.uf.union (ufget st.labels (k - 1)) (ufget st.labels (k - width)),
            st.nextLabel⟩ := by
        simp only [labelStep, hbk]
        rw [if_neg (by simp), if_pos hcL, if_pos hcT,
          if_neg (show ¬(ufget st.labels (k - 1) = 0 ∧ ufget st.labels (k - width) = 0) by
            omega),
          if_pos (show 0 < ufget st.labels (k - 1) ∧ 0 < ufget st.labels (k - width) by
            omega)]
      rw [hstep]
      refine scan_step_two bin width total k st hw hk hinv hbk ?_ ?_ ?_
      · exact (nbr_iff bin width k (k - 1) hw).mpr (Or.inl ⟨hcL.1, rfl, hcL.2⟩)
      · exact (nbr_iff bin width k (k - width) hw).mpr (Or.inr ⟨hcT.1, rfl, hcT.2⟩)
      · intro a ha
        rcases (nbr_iff bin width k a hw).mp ha with ⟨_, h2, _⟩ | ⟨_, h2, _⟩
        · exact Or.inl h2
        · exact Or.inr h2
    · -- left neighbour only
      have hk0 : k ≠ 0 := fun e => hcL.1 (by rw [e, Nat.zero_mod])
      have hLpos := hinv.fg_pos (k - 1) (by omega) hcL.2
      have hstep : labelStep bin width st k =
          ⟨lset st.labels k (ufget st.labels (k - 1)), st.uf, st.nextLabel⟩ := by
        simp only [labelStep, hbk]
        rw [if_neg (by simp), if_pos hcL, if_neg hcT,
          if_neg (show ¬(ufget st.labels (k - 1) = 0 ∧ (0 : Nat) = 0) by omega),
          if_neg (show ¬(0 < ufget st.labels (k - 1) ∧ 0 < (0 : Nat)) by omega),
          if_pos (show ufget st.labels (k - 1) ≠ 0 by omega)]
      rw [hstep]
      refine scan_step_one bin width total k st hw hk hinv hbk (k - 1) ?_ ?_
      · exact (nbr_iff bin width k (k - 1) hw).mpr (Or.inl ⟨hcL.1, rfl, hcL.2⟩)
      · intro a ha
        rcases (nbr_iff bin width k a hw).mp ha with ⟨_, h2, _⟩ | ⟨h1, _, h3⟩
        · exact h2
        · exact absurd ⟨h1, h3⟩ hcT
    · -- top neighbour only
      have hTpos := hinv.fg_pos (k - width) (by omega) hcT.2
      have hstep : labelStep bin width st k =
          ⟨lset st.labels k (ufget st.labels (k - width)), st.uf, st.nextLabel⟩ := by
        simp only [labelStep, hbk]
        rw [if_neg (by simp), if_neg hcL, if_pos hcT,
          if_neg (show ¬((0 : Nat) = 0 ∧ ufget st.labels (k - width) = 0) by omega),
          if_neg (show ¬(0 < (0 : Nat) ∧ 0 < ufget st.labels (k - width)) by omega),
          if_neg (show ¬((0 : Nat) ≠ 0) by omega)]
      rw [hstep]
      refine scan_step_one bin width total k st hw hk hinv hbk (k - width) ?_ ?_
      · exact (nbr_iff bin width k (k - width) hw).mpr (Or.inr ⟨hcT.1, rfl, hcT.2⟩)
      · intro a ha
        rcases (nbr_iff bin width k a hw).mp ha with ⟨h1, _, h3⟩ | ⟨_, h2, _⟩
        · exact absurd ⟨h1, h3⟩ hcL
        · exact h2
    · -- no scanned neighbour: fresh label
      have hstep : labelStep bin width st k =
          ⟨lset st.labels k st.nextLabel, st.uf, st.nextLabel + 1⟩ := by
        simp only [labelStep, hbk]
        rw [if_neg (by simp), if_neg hcL, if_neg hcT, if_pos ⟨rfl, rfl⟩]
      rw [hstep]
      refine scan_step_fresh bin width total k st hw hk hinv hbk ?_
      intro a ha
      rcases (nbr_iff bin width k a hw).mp ha with ⟨h1, _, h3⟩ | ⟨h1, _, h3⟩
      · exact hcL ⟨h1, h3⟩
      · exact hcT ⟨h1, h3⟩
  · -- background pixel: the state is unchanged
    have hbk2 : bin k = false := by simpa using hbk
    have hstep : labelStep bin width st k = st := by
      simp [labelStep, hbk2]
    rw [hstep]
    refine ⟨hinv.labels_len, hinv.uf_len, hinv.uf_inv, hinv.next_pos,
      (by have := hinv.next_le; omega), ?_, ?_, ?_, hinv.fresh, ?_⟩
    · intro i hi
      exact hinv.unprocessed i (by omega)
    · intro i hi hb
      by_cases hik : i = k
      · rw [hik]
        exact hinv.unprocessed k (le_refl k)
      · exact hinv.bg_zero i (by omega) hb
    · intro i hi hb
      have hik : i ≠ k := fun e => by rw [e, hbk2] at hb; cases hb
      exact hinv.fg_pos i (by omega) hb
    · intro i j hi hj hbi hbj
      have hik : i ≠ k := fun e => by rw [e, hbk2] at hbi; cases hbi
      have hjk : j ≠ k := fun e => by rw [e, hbk2] at hbj; cases hbj
      rw [connected_extend_bg bin width k hbk2]
      exact hinv.classes i j (by omega) (by omega) hbi hbj

/-- The invariant holds after the whole first pass. -/
theorem firstPass_inv (bin : Nat → Bool) (width height : Nat) (hw : 0 < width) :
    ScanInv bin width (width * height) (width * height)
      (firstPass bin width height) := by
  have main : ∀ k, k ≤ width * height →
      ScanInv bin width (width * height) k
        ((List.range k).foldl (labelStep bin width)
          ⟨List.replicate (width * height) 0,
            UnionFind.init (width * height + 1), 1⟩) := by
    intro k
    induction k with
    | zero =>
      intro _
      exact scanInv_init bin width (width * height)
    | succ k ih =>
      intro hk
      rw [List.range_succ, List.foldl_append]
      exact scan_step bin width (width * height) k _ hw (by omega) (ih (by omega))
  exact main (width * height) (le_refl _)

/-- Invariant of the flattening second pass after `k` pixels. -/
structure FlatInv (stL : List Nat) (stUF : UnionFind) (k : Nat)
    (p : List Nat × UnionFind) : Prop where
  len1 : p.1.length = stL.length
  uflen : p.2.parent.length = stUF.parent.length
  ufinv : UFInv p.2
  same : SameRoots p.2.parent stUF.parent
  done : ∀ i, i < k → (ufget stL i = 0 → ufget p.1 i = 0) ∧
    (0 < ufget stL i → reachesRoot stUF.parent (ufget stL i) (ufget p.1 i))
  todo : ∀ i, k ≤ i → ufget p.1 i = ufget stL i

/-- One flattening step preserves the invariant. -/
theorem flatten_step_inv (stL : List Nat) (stUF : UnionFind) (k : Nat)
    (p : List Nat × UnionFind) (hk : k < stL.length)
    (hbound : ∀ i, ufget stL i < stUF.parent.length)
    (hinv : FlatInv stL stUF k p) :
    FlatInv stL stUF (k + 1) (flattenStep p k) := by
  have hread : ufget p.1 k = ufget stL k := hinv.todo k (le_refl k)
  by_cases hz : 0 < ufget p.1 k
  · have hstep : flattenStep p k = (lset p.1 k (p.2.find (ufget p.1 k)).2,
        (p.2.find (ufget p.1 k)).1) := by
      simp [flattenStep, hz]
    have hlt : ufget p.1 k < p.2.parent.length := by
      rw [hread, hinv.uflen]
      exact hbound k
    obtain ⟨hflen, _, hfinv, hfsame, hfreach⟩ := find_spec p.2 hinv.ufinv _ hlt
    rw [hstep]
    refine ⟨?_, ?_, hfinv, hfsame.trans hinv.same, ?_, ?_⟩
    · rw [lset_length]
      exact hinv.len1
    · rw [hflen]
      exact hinv.uflen
    · intro i hi
      by_cases hik : i = k
      · rw [hik]
        constructor
        · intro h0
          rw [hread] at hz
          omega
        · intro _
          rw [ufget_lset_self _ _ _ (by rw [hinv.len1]; exact hk), ← hread]
          exact (hinv.same _ _).mp hfreach
      · rw [ufget_lset_other _ _ _ _ (fun e => hik e.symm)]
        exact hinv.done i (by omega)
    · intro i hi
      rw [ufget_lset_other _ _ _ _ (by omega)]
      exact hinv.todo i (by omega)
  · have hstep : flattenStep p k = p := by
      simp [flattenStep, hz]
    rw [hstep]
    refine ⟨hinv.len1, hinv.uflen, hinv.ufinv, hinv.same, ?_, ?_⟩
    · intro i hi
      by_cases hik : i = k
      · rw [hik]
        constructor
        · intro _
          rw [hread] at hz
          omega
        · intro hpos
          rw [hread] at hz
          omega
      · exact hinv.done i (by omega)
    · intro i hi
      exact hinv.todo i (by omega)
  
/-- After the second pass, every foreground pixel's label is the union-find
root of its provisional label. -/
theorem finalLabels_spec (bin : Nat → Bool) (width height : Nat) (hw : 0 < width) :
    ∀ i, (ufget (firstPass bin width height).labels i = 0 →
        ufget (finalLabels bin width height) i = 0) ∧
      (0 < ufget (firstPass bin width height).labels i →
        reachesRoot (firstPass bin width height).uf.parent
          (ufget (firstPass bin width height).labels i)
          (ufget (finalLabels bin width height) i)) := by
  have hscan := firstPass_inv bin width height hw
  have hbound : ∀ i, ufget (firstPass bin width height).labels i <
      (firstPass bin width height).uf.parent.length := by
    intro i
    rw [hscan.uf_len]
    by_cases hi : i < width * height
    · by_cases hb : bin i = true
      · have := hscan.fg_pos i hi hb
        have := hscan.next_le
        omega
      · rw [hscan.bg_zero i hi (by simpa using hb)]
        omega
    · unfold ufget
      rw [List.getD_eq_default]
      · omega
      · rw [hscan.labels_len]
        omega
  have main : ∀ k, k ≤ width * height →
      FlatInv (firstPass bin width height).labels (firstPass bin width height).uf k
        ((List.range k).foldl flattenStep
          ((firstPass bin width height).labels, (firstPass bin width height).uf)) := by
    intro k
    induction k with
    | zero =>
      intro _
      exact ⟨rfl, rfl, hscan.uf_inv, SameRoots.refl _, fun i hi => absurd hi (by omega),
        fun i _ => rfl⟩
    | succ k ih =>
      intro hk
      rw [List.range_succ, List.foldl_append]
      refine flatten_step_inv _ _ k _ ?_ hbound (ih (by omega))
      rw [hscan.labels_len]
      omega
  intro i
  have hfin := main (width * height) (le_refl _)
  by_cases hi : i < width * height
  · exact hfin.done i hi
  · have hsame := hfin.todo i (by omega)
    constructor
    · intro h0
      show ufget ((List.range (width * height)).foldl flattenStep
        ((firstPass bin width height).labels, (firstPass bin width height).uf)).1 i = 0
      rw [hsame]
      exact h0
    · intro hpos
      have h0 : ufget (firstPass bin width height).labels i = 0 := by
        unfold ufget
        rw [List.getD_eq_default]
        rw [hscan.labels_len]
        omega
      omega

/-- C5: after the two-pass union-find labelling (row-major scan unioning
each foreground pixel with its already-visited left and top foreground
neighbours, then flattening to union-find roots), two foreground pixels
carry the same final label exactly when they lie in the same 4-connected
foreground component of the binarised input. -/
theorem C5_labels_iff_connected (alpha : Nat → Nat) (width height i j : Nat)
    (hi : i < width * height) (hj : j < width * height)
    (hbi : binarize alpha i = true) (hbj : binarize alpha j = true) :
    (ufget (finalLabels (binarize alpha) width height) i =
        ufget (finalLabels (binarize alpha) width height) j ↔
      connectedIn (binarize alpha) width (width * height) i j) := by
  have hw : 0 < width := by
    rcases Nat.eq_zero_or_pos width with h | h
    · rw [h, Nat.zero_mul] at hi
      omega
    · exact h
  have hscan := firstPass_inv (binarize alpha) width height hw
  have hspec := finalLabels_spec (binarize alpha) width height hw
  have hposi := hscan.fg_pos i hi hbi
  have hposj := hscan.fg_pos j hj hbj
  have hreachi := (hspec i).2 hposi.1
  have hreachj := (hspec j).2 hposj.1
  rw [← hscan.classes i j hi hj hbi hbj]
  constructor
  · intro h
    exact ⟨_, hreachi, h ▸ hreachj⟩
  · rintro ⟨r, h1, h2⟩
    rw [reachesRoot_unique hreachi h1, reachesRoot_unique hreachj h2]

/-- Witness for C5: on the concrete 3×2 raster whose right column is
transparent, pixels 0 and 4 are foreground and the equivalence holds for
them. -/
theorem C5_labels_iff_connected_witness :
    0 < 3 * 2 ∧ 4 < 3 * 2 ∧
      binarize (fun i => if i % 3 = 2 then 0 else 255) 0 = true ∧
      binarize (fun i => if i % 3 = 2 then 0 else 255) 4 = true ∧
      (ufget (finalLabels (binarize (fun i => if i % 3 = 2 then 0 else 255)) 3 2) 0 =
          ufget (finalLabels (binarize (fun i => if i % 3 = 2 then 0 else 255)) 3 2) 4 ↔
        connectedIn (binarize (fun i => if i % 3 = 2 then 0 else 255)) 3 (3 * 2) 0 4) :=
  ⟨by decide, by decide, by decide, by decide,
    C5_labels_iff_connected (fun i => if i % 3 = 2 then 0 else 255) 3 2 0 4
      (by decide) (by decide) (by decide) (by decide)⟩

end RatEval
